import Mathlib

/-!
# Verification of the topology-extraction / valve-lineup optimization engine

Shallow embedding of `worker/petex_client/gap_tools.py` (together with the
relevant behaviour of `worker/petex_client/server.py`) and proofs about it.

Conventions used throughout:

* Python floats are modelled as rationals (`ℚ`); the engine only adds and
  compares scores, so this is faithful.
* The solver session (`PetexServer`/OpenServer) is modelled as a state machine
  `Srv σ`: `do_cmd` may change the state or raise (`Except.error`, modelling a
  raised `PetexException`), `get_value` reads a value from the state or raises.
  `PetexServer.get_value` (server.py, lines 142-155) raises on a solver error
  and otherwise returns the string from COM; the numeric payload of that string
  is modelled as `Option ℚ` (`none` = empty/falsy string).
* The command strings built by the Python code are injectively generated from
  an equipment uid, so they are modelled by the inductive `Cmd`:
  - `Cmd.mask uid`    stands for "GAP.MOD[{PROD}].EQUIP[<uid>].MASK()"
  - `Cmd.unmask uid`  stands for "GAP.MOD[{PROD}].EQUIP[<uid>].UNMASK()"
  - `Cmd.solveNetwork` stands for "GAP.SOLVENETWORK()"
  and the tags read by `evaluate_lineup` by the inductive `Tag`:
  - `Tag.sepCount`  stands for "GAP.MOD[{PROD}].SEP.COUNT"
  - `Tag.sepOil i`  stands for "GAP.MOD[{PROD}].SEP[<i>].SolverResults[0].OilRate"
* Python dicts are modelled as association lists in insertion order.
-/

/-- Text of a raised Python exception. -/
abbrev Err := String

/-- The solver commands issued by the lineup engine (see module comment for the
exact command strings each constructor stands for). -/
inductive Cmd where
  | mask (uid : String)
  | unmask (uid : String)
  | solveNetwork
deriving DecidableEq, Repr

/-- The solver tags read by `evaluate_lineup`. -/
inductive Tag where
  | sepCount
  | sepOil (i : Nat)
deriving DecidableEq, Repr

/-- A solver session: `doCmd` mirrors `PetexServer.do_cmd` (state transition or
raised `PetexException`), `getValue` mirrors `PetexServer.get_value` (read of
the current state or raised `PetexException`). -/
structure Srv (σ : Type) where
  doCmd : σ → Cmd → Except Err σ
  getValue : σ → Tag → Except Err (Option ℚ)

/-- One entry of `topology["trunks"]` as built by `extract_topology`
(gap_tools.py, lines 133-138). -/
structure TrunkData where
  uid : String
  type : String
  label : String
  initial_masked : Bool
deriving DecidableEq, Repr

/-- One entry of a branch point's candidate list in `topology["branches"]`
(gap_tools.py, line 149). -/
structure BranchPipe where
  uid : String
  type : String
  label : String
deriving DecidableEq, Repr

/-- The part of a topology snapshot consumed by `apply_lineup` and the
optimizers: the `"trunks"` list and the `"branches"` dict (association list in
insertion order; dict keys are unique in any snapshot produced by Python). -/
structure Topology where
  trunks : List TrunkData
  branches : List (String × List BranchPipe)
deriving DecidableEq, Repr

/-- `chosen_branches`: Python dict mapping a branch-point uid to the chosen
candidate dict, modelled as an association list in insertion order. -/
abbrev Lineup := List (String × BranchPipe)

/-- Dict lookup `chosen_branches[bp]` (with `bp in chosen_branches` test). -/
def lookupBp (l : Lineup) (bp : String) : Option BranchPipe :=
  (l.find? (fun kv => kv.1 == bp)).map (·.2)

/-- Dict update `d[bp] = v`: replaces the value at an existing key in place,
otherwise appends the new key at the end (Python dict insertion order). -/
def dictInsert (l : Lineup) (bp : String) (v : BranchPipe) : Lineup :=
  if l.any (fun kv => kv.1 == bp) then
    l.map (fun kv => if kv.1 == bp then (kv.1, v) else kv)
  else l ++ [(bp, v)]

/-- `TWO_PORT_TYPES` (gap_tools.py, line 6); also the literal tuple
`("PIPE", "INLCHK", "INLGEN")` tested in `apply_lineup`. -/
def TWO_PORT_TYPES : List String := ["PIPE", "INLCHK", "INLGEN"]

/-- `apply_lineup(srv, topology, chosen_branches, force_unmask_trunks,
locked_trunks)` (gap_tools.py, lines 187-229).  The trunk loop issues a
MASK/UNMASK per trunk whose `type` is a two-port type; the branch loop issues,
for every candidate with a two-port type, UNMASK if the lineup chooses its uid
at that branch point and MASK otherwise.  `locked_trunks = None` defaults to
the empty list at the call sites, so it is taken here as a plain list. -/
def apply_lineup {σ : Type} (srv : Srv σ) (topology : Topology) (chosen_branches : Lineup)
    (force_unmask_trunks : Bool) (locked_trunks : List String) (s : σ) : Except Err σ := do
  let s ← topology.trunks.foldlM (fun s trunk =>
    if trunk.type ∈ TWO_PORT_TYPES then
      if trunk.uid ∈ locked_trunks then
        srv.doCmd s (Cmd.mask trunk.uid)
      else if force_unmask_trunks then
        srv.doCmd s (Cmd.unmask trunk.uid)
      else if trunk.initial_masked then
        srv.doCmd s (Cmd.mask trunk.uid)
      else
        srv.doCmd s (Cmd.unmask trunk.uid)
    else pure s) s
  topology.branches.foldlM (fun s bpPipes =>
    bpPipes.2.foldlM (fun s node =>
      if node.type ∈ TWO_PORT_TYPES then
        match lookupBp chosen_branches bpPipes.1 with
        | some chosen => if node.uid = chosen.uid then srv.doCmd s (Cmd.unmask node.uid)
                         else srv.doCmd s (Cmd.mask node.uid)
        | none => srv.doCmd s (Cmd.mask node.uid)
      else pure s) s) s

/-- Python `float(x or 0)` applied to the `Option ℚ` payload of a read:
an empty/missing value contributes `0`. -/
def pyFloat (v : Option ℚ) : ℚ := v.getD 0

/-- Python `int(x)` applied to the payload of a read: raises `ValueError` on an
empty string, parses an integer otherwise (a non-integral payload also raises
in Python, modelled by the `den ≠ 1` branch). -/
def pyInt (v : Option ℚ) : Except Err Int :=
  match v with
  | none => Except.error "ValueError: invalid literal for int()"
  | some q => if q.den = 1 then Except.ok q.num else Except.error "ValueError: invalid literal for int()"

/-- `evaluate_lineup(srv)` (gap_tools.py, lines 235-245): one
`GAP.SOLVENETWORK()`, then read the separator count and sum for each separator
`float(oil or 0)` over its oil-rate read. -/
def evaluate_lineup {σ : Type} (srv : Srv σ) (s : σ) : Except Err (ℚ × σ) := do
  let s ← srv.doCmd s Cmd.solveNetwork
  let cnt ← srv.getValue s Tag.sepCount
  let sep_count ← pyInt cnt
  let total_oil ← (List.range sep_count.toNat).foldlM (fun (acc : ℚ) i => do
    let oil ← srv.getValue s (Tag.sepOil i)
    pure (acc + pyFloat oil)) 0
  pure (total_oil, s)

/-- `itertools.product(*choices)`: the Cartesian product of the candidate
lists, in `itertools` order (first list varies slowest). -/
def pyProduct {α : Type} : List (List α) → List (List α)
  | [] => [[]]
  | l :: ls => l.flatMap (fun x => (pyProduct ls).map (fun combo => x :: combo))

/-- `{branch_points[i]: combo[i] for i in range(len(branch_points))}`
(gap_tools.py, line 261); the keys are the branch-dict keys, hence distinct. -/
def mkChosen (branch_points : List String) (combo : List BranchPipe) : Lineup :=
  List.zip branch_points combo

/-- The body of the brute-force combination loop (gap_tools.py, lines 260-269):
apply the combination, evaluate it, and keep it if it strictly improves the
best score.  The printing in the source has no observable effect here. -/
def comboStep {σ : Type} (srv : Srv σ) (topology : Topology) (force_unmask_trunks : Bool)
    (locked_trunks : List String) (branch_points : List String)
    (acc : ℚ × Option Lineup × σ) (combo : List BranchPipe) : Except Err (ℚ × Option Lineup × σ) := do
  let chosen_branches := mkChosen branch_points combo
  let s ← apply_lineup srv topology chosen_branches force_unmask_trunks locked_trunks acc.2.2
  let (score, s) ← evaluate_lineup srv s
  if score > acc.1 then pure (score, some chosen_branches, s)
  else pure (acc.1, acc.2.1, s)

/-- `optimize_lineup_bruteforce(srv, topology, force_unmask_trunks,
locked_trunks)` (gap_tools.py, lines 250-271).  `best_score` starts at `-1`,
`best_lineup` at `None`; the result also carries the final session state. -/
def optimize_lineup_bruteforce {σ : Type} (srv : Srv σ) (topology : Topology)
    (force_unmask_trunks : Bool) (locked_trunks : List String) (s : σ) :
    Except Err (Option Lineup × ℚ × σ) := do
  let branch_points := topology.branches.map Prod.fst
  let choices := topology.branches.map Prod.snd
  let res ← (pyProduct choices).foldlM
    (comboStep srv topology force_unmask_trunks locked_trunks branch_points)
    ((-1 : ℚ), (none : Option Lineup), s)
  pure (res.2.1, res.1, res.2.2)

/-- The body of one greedy trial (gap_tools.py, lines 289-297): try `pipe` at
the current branch point on top of the already fixed choices, and keep it if it
strictly improves the best score for this branch point.  The accumulator is
`(best_score, best_choice, trial_choice, session state)`; `trial_choice` is
kept because the Python variable leaks out of the loop. -/
def trialStep {σ : Type} (srv : Srv σ) (topology : Topology) (force_unmask_trunks : Bool)
    (locked_trunks : List String) (chosen_branches : Lineup) (bp : String)
    (acc : ℚ × Option BranchPipe × Option Lineup × σ) (pipe : BranchPipe) :
    Except Err (ℚ × Option BranchPipe × Option Lineup × σ) := do
  let trial_choice := dictInsert chosen_branches bp pipe
  let s ← apply_lineup srv topology trial_choice force_unmask_trunks locked_trunks acc.2.2.2
  let (score, s) ← evaluate_lineup srv s
  if score > acc.1 then pure (score, some pipe, some trial_choice, s)
  else pure (acc.1, acc.2.1, some trial_choice, s)

/-- The body of the greedy branch-point loop (gap_tools.py, lines 285-300):
run all candidate trials for this branch point, then fix the best choice; a
`None` best choice makes the `print` on line 300 raise a `TypeError`.  The
accumulator is `(chosen_branches, trial_choice, session state)`. -/
def bpStep {σ : Type} (srv : Srv σ) (topology : Topology) (force_unmask_trunks : Bool)
    (locked_trunks : List String) (st : Lineup × Option Lineup × σ)
    (bpPipes : String × List BranchPipe) : Except Err (Lineup × Option Lineup × σ) := do
  let inner ← bpPipes.2.foldlM
    (trialStep srv topology force_unmask_trunks locked_trunks st.1 bpPipes.1)
    ((-1 : ℚ), (none : Option BranchPipe), st.2.1, st.2.2)
  match inner.2.1 with
  | none => Except.error "TypeError: NoneType object is not subscriptable"
  | some best_choice =>
      pure (dictInsert st.1 bpPipes.1 best_choice, inner.2.2.1, inner.2.2.2)

/-- `optimize_lineup_greedy(srv, topology, force_unmask_trunks, locked_trunks)`
(gap_tools.py, lines 276-311).  Faithful to the source, including its two traps:
if a branch point ends with `best_choice = None` (empty candidate list, or no
trial scored above the initial `-1`), the `print` on line 300 raises a
`TypeError`; and the final apply on line 303 uses the leftover loop variable
`trial_choice` (the LAST trial of the last branch point), raising a `NameError`
when there is no branch point at all. -/
def optimize_lineup_greedy {σ : Type} (srv : Srv σ) (topology : Topology)
    (force_unmask_trunks : Bool) (locked_trunks : List String) (s : σ) :
    Except Err (Lineup × ℚ × σ) := do
  let st ← topology.branches.foldlM
    (bpStep srv topology force_unmask_trunks locked_trunks)
    (([] : Lineup), (none : Option Lineup), s)
  match st.2.1 with
  | none => Except.error "NameError: name trial_choice is not defined"
  | some trial_choice => do
      let s ← apply_lineup srv topology trial_choice force_unmask_trunks locked_trunks st.2.2
      let (final_score, s) ← evaluate_lineup srv s
      pure (st.1, final_score, s)

/-! ## Concrete solver oracles used in the theorems -/

/-- An oracle that records the issued commands and answers every read with an
empty value; used to observe exactly which commands `apply_lineup` issues. -/
def traceSrv : Srv (List Cmd) where
  doCmd s c := Except.ok (s ++ [c])
  getValue _ _ := Except.ok none

/-- A deterministic scoring stub.  The state is the set of currently masked
equipment uids together with a counter of the solves performed so far.
MASK/UNMASK update the masked set, SOLVENETWORK bumps the counter, the model
reports one separator whose oil rate is `f` of the masked set. -/
def objSrv (f : Finset String → ℚ) : Srv (Finset String × Nat) where
  doCmd s c := Except.ok (match c with
    | Cmd.mask uid => (insert uid s.1, s.2)
    | Cmd.unmask uid => (s.1.erase uid, s.2)
    | Cmd.solveNetwork => (s.1, s.2 + 1))
  getValue s t := Except.ok (match t with
    | Tag.sepCount => some 1
    | Tag.sepOil 0 => some (f s.1)
    | Tag.sepOil (_ + 1) => some 0)

/-- Like `objSrv`, but `GAP.SOLVENETWORK()` raises whenever the masked set
satisfies `bad`; used for the error-propagation claims. -/
def errSolveSrv (f : Finset String → ℚ) (bad : Finset String → Bool) :
    Srv (Finset String × Nat) where
  doCmd s c := match c with
    | Cmd.mask uid => Except.ok (insert uid s.1, s.2)
    | Cmd.unmask uid => Except.ok (s.1.erase uid, s.2)
    | Cmd.solveNetwork =>
        if bad s.1 then Except.error "PetexException: DoCmd: GAP.SOLVENETWORK()"
        else Except.ok (s.1, s.2 + 1)
  getValue s t := Except.ok (match t with
    | Tag.sepCount => some 1
    | Tag.sepOil 0 => some (f s.1)
    | Tag.sepOil (_ + 1) => some 0)

/-- An oracle for `evaluate_lineup` alone: the state counts solves, the
separator count read returns `cnt` and the oil-rate read for separator `i`
returns `reads i` (which may itself raise). -/
def sepSrv (cnt : Option ℚ) (reads : Nat → Except Err (Option ℚ)) : Srv Nat where
  doCmd s c := Except.ok (match c with
    | Cmd.solveNetwork => s + 1
    | _ => s)
  getValue _ t := match t with
    | Tag.sepCount => Except.ok cnt
    | Tag.sepOil i => reads i

/-! ## Pure description of the command sequence and of the mask state -/

/-- The single MASK/UNMASK command the spec prescribes for a (two-port) trunk:
locked trunks are masked, otherwise FORCE_OPEN unmasks and RESTORE_INITIAL
replays `initial_masked`. -/
def specTrunkCmd (force_unmask_trunks : Bool) (locked_trunks : List String)
    (t : TrunkData) : Cmd :=
  if t.uid ∈ locked_trunks then Cmd.mask t.uid
  else if force_unmask_trunks then Cmd.unmask t.uid
  else if t.initial_masked then Cmd.mask t.uid
  else Cmd.unmask t.uid

/-- The single MASK/UNMASK command the spec prescribes for a (two-port) branch
candidate: the chosen candidate is unmasked, every other candidate is masked,
and all candidates of an undecided branch point are masked. -/
def specBranchCmd (chosen_branches : Lineup) (bp : String) (node : BranchPipe) : Cmd :=
  match lookupBp chosen_branches bp with
  | some chosen => if node.uid = chosen.uid then Cmd.unmask node.uid else Cmd.mask node.uid
  | none => Cmd.mask node.uid

/-- The full command sequence described by the spec for one lineup application
(claim C5, amended by restricting to entries of a two-port type, which the code
skips): per-trunk commands in trunk order, then per-candidate commands in
branch-dict and candidate-list order. -/
def applyCommands (topology : Topology) (chosen_branches : Lineup)
    (force_unmask_trunks : Bool) (locked_trunks : List String) : List Cmd :=
  (topology.trunks.filter (fun t => t.type ∈ TWO_PORT_TYPES)).map
      (specTrunkCmd force_unmask_trunks locked_trunks)
    ++ topology.branches.flatMap (fun bpPipes =>
        (bpPipes.2.filter (fun n => n.type ∈ TWO_PORT_TYPES)).map
          (specBranchCmd chosen_branches bpPipes.1))

/-- Effect of one command on the masked set. -/
def maskStep (m : Finset String) : Cmd → Finset String
  | Cmd.mask uid => insert uid m
  | Cmd.unmask uid => m.erase uid
  | Cmd.solveNetwork => m

/-- The masked set after `apply_lineup` on the `objSrv` oracle: the sequential
effect of the commands of `applyCommands` on the incoming masked set. -/
def applyMask (topology : Topology) (chosen_branches : Lineup)
    (force_unmask_trunks : Bool) (locked_trunks : List String) (m : Finset String) :
    Finset String :=
  (applyCommands topology chosen_branches force_unmask_trunks locked_trunks).foldl maskStep m

/-! ## Generic fold lemmas -/

/-- A `foldlM` over `Except` whose body always succeeds is the pure fold. -/
theorem foldlM_ok {α β : Type} (g : β → α → β) (F : β → α → Except Err β) (l : List α)
    (h : ∀ b a, a ∈ l → F b a = Except.ok (g b a)) (b : β) :
    l.foldlM F b = Except.ok (l.foldl g b) := by
  induction l generalizing b with
  | nil => rfl
  | cons x xs ih =>
      have hx : F b x = Except.ok (g b x) := h b x (List.mem_cons_self x xs)
      simpa [List.foldlM, hx] using ih (fun b a ha => h b a (List.mem_cons_of_mem _ ha)) (g b x)

/-- Binding a raised exception short-circuits. -/
theorem error_bind {β γ : Type} (e : Err) (f : β → Except Err γ) :
    (Except.error e >>= f) = (Except.error e : Except Err γ) := rfl

/-- Binding a normal result applies the continuation. -/
theorem ok_bind {β γ : Type} (b : β) (f : β → Except Err γ) :
    (Except.ok b >>= f) = f b := rfl

/-- An erroring step inside a `foldlM` over `Except` aborts the whole fold. -/
theorem foldlM_error {α β : Type} (F : β → α → Except Err β) (l1 : List α) (c : α)
    (l2 : List α) (b0 b1 : β) (e : Err)
    (h1 : l1.foldlM F b0 = Except.ok b1) (h2 : F b1 c = Except.error e) :
    (l1 ++ c :: l2).foldlM F b0 = Except.error e := by
  induction l1 generalizing b0 with
  | nil =>
      cases h1
      simp [List.foldlM, h2, error_bind]
  | cons x xs ih =>
      cases hx : F b0 x with
      | error e' => simp [List.foldlM, hx, error_bind] at h1
      | ok b' =>
          simp only [List.foldlM, hx, ok_bind] at h1
          simpa [List.foldlM, hx, ok_bind] using ih b' h1

/-- Folding a step over the kept-and-translated elements only. -/
theorem foldl_filter_map {α β γ : Type} (p : α → Bool) (g : α → β) (u : γ → β → γ)
    (l : List α) (b : γ) :
    ((l.filter p).map g).foldl u b = l.foldl (fun b a => if p a then u b (g a) else b) b := by
  induction l generalizing b with
  | nil => rfl
  | cons x xs ih =>
      by_cases hx : p x <;> simp [List.filter_cons, hx, ih]

/-- Folding over a `flatMap` is the nested fold. -/
theorem foldl_flatMap {α β γ : Type} (h : α → List β) (u : γ → β → γ) (l : List α) (b : γ) :
    (l.flatMap h).foldl u b = l.foldl (fun b a => (h a).foldl u b) b := by
  induction l generalizing b with
  | nil => rfl
  | cons x xs ih => simp [List.flatMap_cons, List.foldl_append, ih]

/-- `apply_lineup` on any oracle whose `doCmd` is total is the pure fold of the
spec-side command list `applyCommands` through the oracle's transition. -/
theorem apply_lineup_pure {σ : Type} (srv : Srv σ) (step : σ → Cmd → σ)
    (hsrv : ∀ s c, c ≠ Cmd.solveNetwork → srv.doCmd s c = Except.ok (step s c))
    (topology : Topology) (chosen_branches : Lineup)
    (force_unmask_trunks : Bool) (locked_trunks : List String) (s : σ) :
    apply_lineup srv topology chosen_branches force_unmask_trunks locked_trunks s =
      Except.ok ((applyCommands topology chosen_branches force_unmask_trunks locked_trunks).foldl step s) := by
  have htr : topology.trunks.foldlM (fun s trunk =>
      if trunk.type ∈ TWO_PORT_TYPES then
        if trunk.uid ∈ locked_trunks then srv.doCmd s (Cmd.mask trunk.uid)
        else if force_unmask_trunks then srv.doCmd s (Cmd.unmask trunk.uid)
        else if trunk.initial_masked then srv.doCmd s (Cmd.mask trunk.uid)
        else srv.doCmd s (Cmd.unmask trunk.uid)
      else pure s) s =
      Except.ok (topology.trunks.foldl (fun s t =>
        if t.type ∈ TWO_PORT_TYPES then step s (specTrunkCmd force_unmask_trunks locked_trunks t)
        else s) s) := by
    apply foldlM_ok
    intro b t _
    by_cases h1 : t.type ∈ TWO_PORT_TYPES <;>
      by_cases h2 : t.uid ∈ locked_trunks <;>
        cases hf : force_unmask_trunks <;>
          cases hm : t.initial_masked <;>
            simp [h1, h2, hf, hm, hsrv, specTrunkCmd, pure, Except.pure]
  have hbr : ∀ s0 : σ, topology.branches.foldlM (fun s bpPipes =>
      bpPipes.2.foldlM (fun s node =>
        if node.type ∈ TWO_PORT_TYPES then
          match lookupBp chosen_branches bpPipes.1 with
          | some chosen => if node.uid = chosen.uid then srv.doCmd s (Cmd.unmask node.uid)
                           else srv.doCmd s (Cmd.mask node.uid)
          | none => srv.doCmd s (Cmd.mask node.uid)
        else pure s) s) s0 =
      Except.ok (topology.branches.foldl (fun s bpPipes =>
        bpPipes.2.foldl (fun s n =>
          if n.type ∈ TWO_PORT_TYPES then step s (specBranchCmd chosen_branches bpPipes.1 n)
          else s) s) s0) := by
    intro s0
    apply foldlM_ok
    intro b kv _
    apply foldlM_ok
    intro b' n _
    by_cases h1 : n.type ∈ TWO_PORT_TYPES
    · cases hl : lookupBp chosen_branches kv.1 with
      | none => simp [h1, hl, hsrv, specBranchCmd]
      | some chosen =>
          by_cases h2 : n.uid = chosen.uid <;> simp [h1, hl, h2, hsrv, specBranchCmd]
    · simp [h1, pure, Except.pure]
  calc apply_lineup srv topology chosen_branches force_unmask_trunks locked_trunks s
      = _ := rfl
    _ = Except.ok ((applyCommands topology chosen_branches force_unmask_trunks locked_trunks).foldl step s) := by
        rw [apply_lineup] at *
        rw [htr, ok_bind, hbr]
        rw [applyCommands, List.foldl_append, foldl_filter_map, foldl_flatMap]
        simp only [decide_eq_true_eq]
        congr 1
        apply List.foldl_ext
        intro b kv _
        rw [foldl_filter_map]
        simp only [decide_eq_true_eq]

/-- Appending one element at a time is list append. -/
theorem foldl_snoc_eq_append {α : Type} (l acc : List α) :
    l.foldl (fun s c => s ++ [c]) acc = acc ++ l := by
  induction l generalizing acc with
  | nil => simp
  | cons x xs ih => simp [ih]

/-- On the tracing oracle, `apply_lineup` records exactly the spec-side command
sequence `applyCommands`. -/
theorem apply_lineup_trace (topology : Topology) (chosen_branches : Lineup)
    (force_unmask_trunks : Bool) (locked_trunks : List String) (tr : List Cmd) :
    apply_lineup traceSrv topology chosen_branches force_unmask_trunks locked_trunks tr =
      Except.ok (tr ++ applyCommands topology chosen_branches force_unmask_trunks locked_trunks) := by
  rw [apply_lineup_pure traceSrv (fun s c => s ++ [c]) (fun _ _ _ => rfl)]
  rw [foldl_snoc_eq_append]

/-- The transition of the `objSrv`/`errSolveSrv` state machines. -/
def objStep (s : Finset String × Nat) : Cmd → Finset String × Nat
  | Cmd.mask uid => (insert uid s.1, s.2)
  | Cmd.unmask uid => (s.1.erase uid, s.2)
  | Cmd.solveNetwork => (s.1, s.2 + 1)

/-- `specTrunkCmd` is a MASK or UNMASK, never a solve. -/
theorem specTrunkCmd_ne_solve (force_unmask_trunks : Bool) (locked_trunks : List String)
    (t : TrunkData) : specTrunkCmd force_unmask_trunks locked_trunks t ≠ Cmd.solveNetwork := by
  unfold specTrunkCmd
  split <;> [skip; split <;> [skip; split]] <;> simp

/-- `specBranchCmd` is a MASK or UNMASK, never a solve. -/
theorem specBranchCmd_ne_solve (chosen_branches : Lineup) (bp : String) (n : BranchPipe) :
    specBranchCmd chosen_branches bp n ≠ Cmd.solveNetwork := by
  unfold specBranchCmd
  split <;> [split <;> simp; simp]

/-- Every command issued by one lineup application is a MASK or UNMASK. -/
theorem applyCommands_ne_solve (topology : Topology) (chosen_branches : Lineup)
    (force_unmask_trunks : Bool) (locked_trunks : List String) :
    ∀ c ∈ applyCommands topology chosen_branches force_unmask_trunks locked_trunks,
      c ≠ Cmd.solveNetwork := by
  intro c hc
  rcases List.mem_append.mp hc with h | h
  · obtain ⟨t, _, rfl⟩ := List.mem_map.mp h
    exact specTrunkCmd_ne_solve _ _ _
  · obtain ⟨kv, _, hkv⟩ := List.mem_flatMap.mp h
    obtain ⟨n, _, rfl⟩ := List.mem_map.mp hkv
    exact specBranchCmd_ne_solve _ _ _

/-- A solve-free command list leaves the solve counter alone and drives only
the masked set. -/
theorem foldl_objStep_of_ne_solve (cmds : List Cmd) (h : ∀ c ∈ cmds, c ≠ Cmd.solveNetwork)
    (m : Finset String) (k : Nat) :
    cmds.foldl objStep (m, k) = (cmds.foldl maskStep m, k) := by
  induction cmds generalizing m with
  | nil => rfl
  | cons c cs ih =>
      have hc := h c (List.mem_cons_self c cs)
      have hstep : objStep (m, k) c = (maskStep m c, k) := by
        cases c with
        | mask uid => rfl
        | unmask uid => rfl
        | solveNetwork => exact absurd rfl hc
      rw [List.foldl_cons, List.foldl_cons, hstep]
      exact ih (fun c hcc => h c (List.mem_cons_of_mem _ hcc)) _

/-- On the deterministic scoring oracle, `apply_lineup` succeeds, updates the
masked set to `applyMask` and performs no solve. -/
theorem apply_lineup_objSrv (f : Finset String → ℚ) (topology : Topology)
    (chosen_branches : Lineup) (force_unmask_trunks : Bool) (locked_trunks : List String)
    (m : Finset String) (k : Nat) :
    apply_lineup (objSrv f) topology chosen_branches force_unmask_trunks locked_trunks (m, k) =
      Except.ok (applyMask topology chosen_branches force_unmask_trunks locked_trunks m, k) := by
  rw [apply_lineup_pure (objSrv f) objStep (fun s c _ => by cases c <;> rfl)]
  rw [foldl_objStep_of_ne_solve _ (applyCommands_ne_solve _ _ _ _)]
  rfl

/-- Same as `apply_lineup_objSrv` for the oracle whose solves can fail:
`apply_lineup` issues no solve, so it never hits the failure. -/
theorem apply_lineup_errSolveSrv (f : Finset String → ℚ) (bad : Finset String → Bool)
    (topology : Topology) (chosen_branches : Lineup) (force_unmask_trunks : Bool)
    (locked_trunks : List String) (m : Finset String) (k : Nat) :
    apply_lineup (errSolveSrv f bad) topology chosen_branches force_unmask_trunks locked_trunks (m, k) =
      Except.ok (applyMask topology chosen_branches force_unmask_trunks locked_trunks m, k) := by
  rw [apply_lineup_pure (errSolveSrv f bad) objStep
    (fun s c hc => by cases c with
      | mask uid => rfl
      | unmask uid => rfl
      | solveNetwork => exact absurd rfl hc)]
  rw [foldl_objStep_of_ne_solve _ (applyCommands_ne_solve _ _ _ _)]
  rfl

/-- On the deterministic scoring oracle, `evaluate_lineup` performs exactly one
solve and reports `f` of the masked set. -/
theorem evaluate_lineup_objSrv (f : Finset String → ℚ) (m : Finset String) (k : Nat) :
    evaluate_lineup (objSrv f) (m, k) = Except.ok (f m, (m, k + 1)) := by
  simp [evaluate_lineup, objSrv, pyInt, pyFloat, List.range_succ, List.foldlM,
    ok_bind, pure, Except.pure]

/-- On the failing-solve oracle, `evaluate_lineup` raises as soon as the solve
fails, and otherwise behaves like `objSrv`. -/
theorem evaluate_lineup_errSolveSrv (f : Finset String → ℚ) (bad : Finset String → Bool)
    (m : Finset String) (k : Nat) :
    evaluate_lineup (errSolveSrv f bad) (m, k) =
      if bad m then Except.error "PetexException: DoCmd: GAP.SOLVENETWORK()"
      else Except.ok (f m, (m, k + 1)) := by
  by_cases hb : bad m <;>
    simp [evaluate_lineup, errSolveSrv, hb, pyInt, pyFloat, List.range_succ, List.foldlM,
      ok_bind, error_bind, pure, Except.pure]
/-- Folding `+` of a mapped value is the sum of the mapped list. -/
theorem foldl_add_eq_sum {α : Type} (g : α → ℚ) (l : List α) (acc : ℚ) :
    l.foldl (fun a i => a + g i) acc = acc + (l.map g).sum := by
  induction l generalizing acc with
  | nil => simp
  | cons x xs ih => simp [ih, add_assoc]

/-- `evaluate_lineup` on an oracle whose reads all succeed: helper computing
the reported total. -/
theorem evaluate_lineup_sepSrv_ok (n : ℕ) (r : ℕ → Option ℚ) (s0 : ℕ) :
    evaluate_lineup (sepSrv (some (n : ℚ)) (fun i => Except.ok (r i))) s0 =
      Except.ok (((List.range n).map (fun i => pyFloat (r i))).sum, s0 + 1) := by
  simp only [evaluate_lineup, sepSrv, ok_bind]
  rw [show pyInt (some (n : ℚ)) = Except.ok (n : ℤ) by simp [pyInt]]
  simp only [ok_bind, Int.toNat_natCast]
  have hfold : (List.range n).foldlM
      (fun (acc : ℚ) i => (pure (acc + pyFloat (r i)) : Except Err ℚ)) (0 : ℚ) =
      Except.ok ((List.range n).foldl (fun (acc : ℚ) i => acc + pyFloat (r i)) 0) := by
    apply foldlM_ok
    intro b a _
    rfl
  rw [hfold, ok_bind, foldl_add_eq_sum]
  simp [pure, Except.pure]

/-- C3 counterexample input: two separators, the oil-rate read of separator 0
raises a `PetexException`, that of separator 1 yields `5`. -/
def c3reads : ℕ → Except Err (Option ℚ)
  | 0 => Except.error "PetexException: DoGet: OilRate"
  | _ => Except.ok (some 5)

/-- Claim C3 (counterexample).  The claim states that a separator whose
oil-rate read *fails* contributes `0.0` while the sum over the remaining
separators is still returned.  On the code, a raising read aborts the whole
evaluation: with two separators where the read of separator 0 raises and the
read of separator 1 yields 5, `evaluate_lineup` raises instead of returning 5;
the same input with separator 0 merely yielding no value returns `0 + 5`. -/
theorem c3_counterexample :
    evaluate_lineup (sepSrv (some 2) c3reads) 0 =
        Except.error "PetexException: DoGet: OilRate" ∧
      evaluate_lineup (sepSrv (some 2) (fun i => Except.ok (if i = 0 then none else some 5))) 0 =
        Except.ok (5, 1) := by
  constructor
  · rfl
  · have h := evaluate_lineup_sepSrv_ok 2 (fun i => if i = 0 then none else some 5) 0
    simpa [List.range_succ, pyFloat] using h

/-- Claim C3 (amended): `evaluate_lineup` triggers exactly one network solve
and sums per-separator oil rates, contributing `0.0` for every separator whose
read succeeds but yields no value (the sum over the remaining separators is
still returned); a read that raises, like a failing solve command, raises for
the whole evaluation and is never coerced to `0.0`. -/
theorem c3_evaluate_lineup_amended :
    (∀ (n : ℕ) (r : ℕ → Option ℚ) (s0 : ℕ),
      evaluate_lineup (sepSrv (some (n : ℚ)) (fun i => Except.ok (r i))) s0 =
        Except.ok (((List.range n).map (fun i => pyFloat (r i))).sum, s0 + 1)) ∧
    (∀ (σ : Type) (srv : Srv σ) (s : σ) (e : Err),
      srv.doCmd s Cmd.solveNetwork = Except.error e →
        evaluate_lineup srv s = Except.error e) ∧
    (∀ (n : ℕ) (r : ℕ → Except Err (Option ℚ)) (s0 : ℕ) (i : ℕ) (e : Err),
      i < n → (∀ j, j < i → ∃ v, r j = Except.ok v) → r i = Except.error e →
        evaluate_lineup (sepSrv (some (n : ℚ)) r) s0 = Except.error e) := by
  refine ⟨evaluate_lineup_sepSrv_ok, ?_, ?_⟩
  · intro σ srv s e h
    simp only [evaluate_lineup, h, error_bind]
  · intro n r s0 i e hi hok he
    simp only [evaluate_lineup, sepSrv, ok_bind]
    rw [show pyInt (some (n : ℚ)) = Except.ok (n : ℤ) by simp [pyInt]]
    simp only [ok_bind, Int.toNat_natCast]
    have hsplit : List.range n =
        List.range i ++ i :: ((List.range (n - i - 1)).map (fun x => i + (1 + x))) := by
      have h1 : n = i + (n - i) := by omega
      have h2 : n - i = 1 + (n - i - 1) := by omega
      rw [h1, List.range_add, h2, List.range_add]
      simp [List.range_succ]
      intro a ha
      omega
    rw [hsplit]
    have hpre : (List.range i).foldlM
        (fun (acc : ℚ) j => do
          let oil ← r j
          pure (acc + pyFloat oil)) (0 : ℚ) =
        Except.ok ((List.range i).foldl
          (fun (acc : ℚ) j => acc + pyFloat ((r j).toOption.getD none)) 0) := by
      apply foldlM_ok
      intro b a ha
      obtain ⟨v, hv⟩ := hok a (List.mem_range.mp ha)
      simp [hv, Except.toOption, ok_bind]
    rw [foldlM_error _ (List.range i) i _ _ _ e hpre (by simp [he, error_bind]), error_bind]

/-- C5 counterexample input: a topology whose only trunk has the non-two-port
type `"JOINT"`. -/
def c5topology : Topology :=
  { trunks := [{ uid := "T1", type := "JOINT", label := "Trunk 1", initial_masked := false }],
    branches := [] }

/-- Claim C5 (counterexample).  The claim requires a MASK command for every
trunk whose uid is locked.  On the code, a trunk whose `type` is not one of
PIPE/INLCHK/INLGEN is skipped entirely: with trunk `T1` of type `"JOINT"` in
`locked_trunks`, `apply_lineup` issues no command at all (the recorded trace is
empty, containing no `MASK(T1)`). -/
theorem c5_counterexample :
    apply_lineup traceSrv c5topology [] true ["T1"] [] = Except.ok ([] : List Cmd) ∧
      ([] : List Cmd).count (Cmd.mask "T1") = 0 := by
  constructor
  · rfl
  · rfl

/-- Claim C5 (amended): for every snapshot, lineup, trunk policy and
locked-trunk set, `apply_lineup` issues exactly the commands of
`applyCommands`: for each trunk *of a two-port type* (PIPE/INLCHK/INLGEN;
others are skipped), MASK if its uid is locked, else UNMASK under FORCE_OPEN,
else MASK/UNMASK replaying `initial_masked`; for each candidate *of a two-port
type* at each branch point, UNMASK the candidate whose uid is chosen at that
point and MASK every other candidate, and MASK all (two-port) candidates of a
branch point with no lineup entry. -/
theorem c5_apply_lineup_amended (topology : Topology) (chosen_branches : Lineup)
    (force_unmask_trunks : Bool) (locked_trunks : List String) :
    apply_lineup traceSrv topology chosen_branches force_unmask_trunks locked_trunks [] =
      Except.ok (applyCommands topology chosen_branches force_unmask_trunks locked_trunks) := by
  simpa using apply_lineup_trace topology chosen_branches force_unmask_trunks locked_trunks []

/-- The strict-improvement fold performed by both optimizer loops: keep the
first element whose score strictly beats everything seen so far. -/
def runBest {α : Type} (acc : ℚ × Option α) (l : List (ℚ × α)) : ℚ × Option α :=
  l.foldl (fun acc p => if p.1 > acc.1 then (p.1, some p.2) else acc) acc

/-- If nothing beats the incumbent score, the fold keeps the incumbent. -/
theorem runBest_no_improve {α : Type} (l : List (ℚ × α)) (q0 : ℚ) (o0 : Option α)
    (h : ∀ p ∈ l, p.1 ≤ q0) : runBest (q0, o0) l = (q0, o0) := by
  induction l with
  | nil => rfl
  | cons c cs ih =>
      have hc : ¬ c.1 > q0 := not_lt.mpr (h c (List.mem_cons_self c cs))
      have ih' := ih (fun p hp => h p (List.mem_cons_of_mem _ hp))
      simpa [runBest, List.foldl_cons, hc] using ih'

/-- If some element beats the incumbent, the fold returns the earliest element
attaining the maximal score (strictly above every earlier score, at least every
later one).  Stated for a mapped list, as both optimizer loops produce one. -/
theorem runBest_found {α β : Type} (g : α → ℚ) (h : α → β) (l : List α)
    (q0 : ℚ) (o0 : Option β) (hex : ∃ a ∈ l, q0 < g a) :
    ∃ l1 a l2, l = l1 ++ a :: l2 ∧ q0 < g a ∧
      (∀ b ∈ l1, g b < g a) ∧ (∀ b ∈ l2, g b ≤ g a) ∧
      runBest (q0, o0) (l.map (fun a => (g a, h a))) = (g a, some (h a)) := by
  induction l generalizing q0 o0 with
  | nil => simp at hex
  | cons c cs ih =>
      by_cases hc : q0 < g c
      · by_cases hcs : ∃ a ∈ cs, g c < g a
        · obtain ⟨l1, a, l2, heq, hgt, hpre, hpost, hrb⟩ := ih (g c) (some (h c)) hcs
          refine ⟨c :: l1, a, l2, by simp [heq], lt_trans hc hgt, ?_, hpost, ?_⟩
          · intro b hb
            rcases List.mem_cons.mp hb with rfl | hb
            · exact hgt
            · exact hpre b hb
          · simpa [runBest, List.foldl_cons, hc] using hrb
        · push_neg at hcs
          refine ⟨[], c, cs, rfl, hc, by simp, hcs, ?_⟩
          have : runBest (g c, some (h c)) (cs.map (fun a => (g a, h a))) = (g c, some (h c)) :=
            runBest_no_improve _ _ _ (by
              intro p hp
              obtain ⟨a, ha, rfl⟩ := List.mem_map.mp hp
              exact hcs a ha)
          simpa [runBest, List.foldl_cons, hc] using this
      · obtain ⟨a0, ha0, hlt0⟩ := hex
        have ha0cs : a0 ∈ cs := by
          rcases List.mem_cons.mp ha0 with rfl | hmem
          · exact absurd hlt0 hc
          · exact hmem
        obtain ⟨l1, a, l2, heq, hgt, hpre, hpost, hrb⟩ := ih q0 o0 ⟨a0, ha0cs, hlt0⟩
        refine ⟨c :: l1, a, l2, by simp [heq], hgt, ?_, hpost, ?_⟩
        · intro b hb
          rcases List.mem_cons.mp hb with rfl | hb
          · exact lt_of_le_of_lt (not_lt.mp hc) hgt
          · exact hpre b hb
        · simpa [runBest, List.foldl_cons, hc] using hrb

/-- One brute-force trial on the deterministic scoring oracle, computed. -/
theorem comboStep_objSrv (f : Finset String → ℚ) (topology : Topology)
    (force_unmask_trunks : Bool) (locked_trunks : List String) (branch_points : List String)
    (q : ℚ) (o : Option Lineup) (m : Finset String) (k : ℕ) (combo : List BranchPipe) :
    comboStep (objSrv f) topology force_unmask_trunks locked_trunks branch_points
        (q, o, (m, k)) combo =
      Except.ok
        (if f (applyMask topology (mkChosen branch_points combo) force_unmask_trunks locked_trunks m) > q
         then (f (applyMask topology (mkChosen branch_points combo) force_unmask_trunks locked_trunks m),
               some (mkChosen branch_points combo),
               (applyMask topology (mkChosen branch_points combo) force_unmask_trunks locked_trunks m, k + 1))
         else (q, o,
               (applyMask topology (mkChosen branch_points combo) force_unmask_trunks locked_trunks m, k + 1))) := by
  simp only [comboStep, apply_lineup_objSrv, ok_bind, evaluate_lineup_objSrv]
  by_cases hq : f (applyMask topology (mkChosen branch_points combo) force_unmask_trunks locked_trunks m) > q <;>
    simp [hq, pure, Except.pure]

/-- The brute-force combination loop on the deterministic scoring oracle is the
pure strict-improvement fold, solving once per combination. -/
theorem bf_fold_objSrv (f : Finset String → ℚ) (F : List BranchPipe → ℚ)
    (topology : Topology) (force_unmask_trunks : Bool) (locked_trunks : List String)
    (branch_points : List String) (l : List (List BranchPipe))
    (hdet : ∀ c ∈ l, ∀ m, f (applyMask topology (mkChosen branch_points c) force_unmask_trunks locked_trunks m) = F c)
    (q : ℚ) (o : Option Lineup) (m : Finset String) (k : ℕ) :
    l.foldlM (comboStep (objSrv f) topology force_unmask_trunks locked_trunks branch_points)
        (q, o, (m, k)) =
      Except.ok ((runBest (q, o) (l.map (fun c => (F c, mkChosen branch_points c)))).1,
        (runBest (q, o) (l.map (fun c => (F c, mkChosen branch_points c)))).2,
        (l.foldl (fun m c => applyMask topology (mkChosen branch_points c) force_unmask_trunks locked_trunks m) m,
         k + l.length)) := by
  induction l generalizing q o m k with
  | nil => simp [runBest, pure, Except.pure]
  | cons c cs ih =>
      have hc := hdet c (List.mem_cons_self c cs) m
      have ihcs := fun q o m k => ih (fun c' hc' => hdet c' (List.mem_cons_of_mem _ hc')) q o m k
      rw [List.foldlM_cons, comboStep_objSrv, ok_bind, hc]
      by_cases hq : F c > q
      · rw [if_pos hq, ihcs]
        simp [runBest, List.foldl_cons, hc, hq, Nat.add_assoc, Nat.add_comm 1 cs.length]
      · rw [if_neg hq, ihcs]
        simp [runBest, List.foldl_cons, hc, hq, Nat.add_assoc, Nat.add_comm 1 cs.length]

/-- Inner counting lemma for the size of the Cartesian product. -/
theorem length_flatMap_map_cons {α : Type} (l : List α) (L : List (List α)) :
    (l.flatMap (fun x => L.map (fun combo => x :: combo))).length = l.length * L.length := by
  induction l with
  | nil => simp
  | cons x xs ih =>
      simp [List.flatMap_cons, ih, Nat.succ_mul]
      omega

/-- The Cartesian product enumerates exactly `Π |candidates|` combinations. -/
theorem pyProduct_length {α : Type} (ls : List (List α)) :
    (pyProduct ls).length = (ls.map List.length).prod := by
  induction ls with
  | nil => rfl
  | cons l ls ih =>
      rw [pyProduct, length_flatMap_map_cons, ih]
      simp

/-- Claim C4 (amended): `optimize_lineup_bruteforce` applies and evaluates
exactly the full Cartesian product of candidate choices over the branch points
in snapshot order (`Π|candidates|` combinations, one solve each), and —
*provided the maximal score exceeds the initial sentinel `-1`* — returns the
earliest-enumerated combination attaining the maximal score.  (If every
combination scores at most `-1`, the code returns `(None, -1)` instead, see the
counterexample.)  `F` is the deterministic objective: `hdet` states that the
evaluation after applying a combination depends on that combination only. -/
theorem c4_bruteforce_amended (f : Finset String → ℚ) (F : List BranchPipe → ℚ)
    (topology : Topology) (force_unmask_trunks : Bool) (locked_trunks : List String)
    (m0 : Finset String) (k0 : ℕ)
    (hdet : ∀ c ∈ pyProduct (topology.branches.map Prod.snd), ∀ m,
      f (applyMask topology (mkChosen (topology.branches.map Prod.fst) c)
          force_unmask_trunks locked_trunks m) = F c)
    (hmax : ∃ c ∈ pyProduct (topology.branches.map Prod.snd), -1 < F c) :
    (pyProduct (topology.branches.map Prod.snd)).length =
        ((topology.branches.map Prod.snd).map List.length).prod ∧
      ∃ l1 c l2 mf,
        pyProduct (topology.branches.map Prod.snd) = l1 ++ c :: l2 ∧
        (∀ c' ∈ l1, F c' < F c) ∧ (∀ c' ∈ l2, F c' ≤ F c) ∧
        optimize_lineup_bruteforce (objSrv f) topology force_unmask_trunks locked_trunks (m0, k0) =
          Except.ok (some (mkChosen (topology.branches.map Prod.fst) c), F c,
            (mf, k0 + (pyProduct (topology.branches.map Prod.snd)).length)) := by
  refine ⟨pyProduct_length _, ?_⟩
  obtain ⟨l1, c, l2, heq, _, hpre, hpost, hrb⟩ :=
    runBest_found F (mkChosen (topology.branches.map Prod.fst))
      (pyProduct (topology.branches.map Prod.snd)) (-1) none hmax
  refine ⟨l1, c, l2,
    (pyProduct (topology.branches.map Prod.snd)).foldl
      (fun m c => applyMask topology (mkChosen (topology.branches.map Prod.fst) c)
        force_unmask_trunks locked_trunks m) m0,
    heq, hpre, hpost, ?_⟩
  simp only [optimize_lineup_bruteforce]
  rw [bf_fold_objSrv f F topology force_unmask_trunks locked_trunks
    (topology.branches.map Prod.fst) _ hdet, hrb]
  rfl

/-- Single candidate of the C4 counterexample topology. -/
def c4pipeA : BranchPipe := { uid := "A", type := "PIPE", label := "pipe A" }

/-- C4 counterexample topology: one branch point with one candidate. -/
def c4topology : Topology := { trunks := [], branches := [("J1", [c4pipeA])] }

/-- Claim C4 (counterexample).  The claim promises the maximal combination for
*every* deterministic objective.  With the constant objective `-2`, the single
combination `[A]` scores `-2`, yet the code returns lineup `None` with score
`-1` (the initial sentinel), because `score > best_score` never fires: it does
not return the (unique) maximal combination. -/
theorem c4_counterexample :
    optimize_lineup_bruteforce (objSrv (fun _ => (-2 : ℚ))) c4topology true [] (∅, 0) =
        Except.ok (none, -1, (∅, 1)) ∧
      pyProduct (c4topology.branches.map Prod.snd) = [[c4pipeA]] ∧
      (fun _ => (-2 : ℚ))
          (applyMask c4topology (mkChosen (c4topology.branches.map Prod.fst) [c4pipeA]) true [] ∅) = -2 ∧
      (-1 : ℚ) ≠ -2 := by
  have hm : applyMask c4topology (mkChosen (c4topology.branches.map Prod.fst) [c4pipeA]) true [] ∅
      = ∅ := by decide
  refine ⟨?_, by decide, rfl, by norm_num⟩
  simp only [optimize_lineup_bruteforce]
  rw [bf_fold_objSrv (fun _ => (-2 : ℚ)) (fun _ => (-2 : ℚ)) c4topology true []
    (c4topology.branches.map Prod.fst) _ (fun _ _ _ => rfl)]
  rw [runBest_no_improve _ _ _ (by
    intro p hp
    obtain ⟨a, _, rfl⟩ := List.mem_map.mp hp
    norm_num)]
  have hfold : (pyProduct (c4topology.branches.map Prod.snd)).foldl
      (fun m c => applyMask c4topology (mkChosen (c4topology.branches.map Prod.fst) c) true [] m) ∅
      = (∅ : Finset String) := by
    have hprod : pyProduct (c4topology.branches.map Prod.snd) = [[c4pipeA]] := by decide
    rw [hprod, List.foldl_cons, List.foldl_nil, hm]
  rw [hfold]
  have hlen : (pyProduct (c4topology.branches.map Prod.snd)).length = 1 := by decide
  rw [hlen]
  rfl

/-- Witness pipes for the C4 witness topology (two candidates at one branch
point). -/
def w4pipeA : BranchPipe := { uid := "A", type := "PIPE", label := "pipe A" }

/-- Second witness pipe. -/
def w4pipeB : BranchPipe := { uid := "B", type := "PIPE", label := "pipe B" }

/-- Witness topology: one branch point, candidates `A` and `B`. -/
def w4topology : Topology := { trunks := [], branches := [("J1", [w4pipeA, w4pipeB])] }

/-- Witness objective on masked sets: combination `[A]` masks `B` (score `3`),
combination `[B]` unmasks `B` (score `7`). -/
def w4f (m : Finset String) : ℚ := if "B" ∈ m then 3 else 7

/-- Witness objective on combinations. -/
def w4F (c : List BranchPipe) : ℚ := if c = [w4pipeA] then 3 else 7

/-- The C4 witness determinism hypothesis: scores depend on the combination
only, whatever the incoming masked set. -/
theorem w4_hdet : ∀ c ∈ pyProduct (w4topology.branches.map Prod.snd), ∀ m,
    w4f (applyMask w4topology (mkChosen (w4topology.branches.map Prod.fst) c) true [] m)
      = w4F c := by
  intro c hc m
  have hprod : pyProduct (w4topology.branches.map Prod.snd) = [[w4pipeA], [w4pipeB]] := by decide
  rw [hprod] at hc
  rcases List.mem_cons.mp hc with rfl | hc
  · have hcmds : applyCommands w4topology (mkChosen (w4topology.branches.map Prod.fst) [w4pipeA])
        true [] = [Cmd.unmask "A", Cmd.mask "B"] := by decide
    rw [applyMask, hcmds]
    simp [maskStep, w4f, w4F]
  · rcases List.mem_cons.mp hc with rfl | hc
    · have hcmds : applyCommands w4topology (mkChosen (w4topology.branches.map Prod.fst) [w4pipeB])
          true [] = [Cmd.mask "A", Cmd.unmask "B"] := by decide
      rw [applyMask, hcmds]
      simp [maskStep, w4f, w4F, Finset.not_mem_erase]
      decide
    · simp at hc

/-- Witness for claim C4's amended theorem: at the concrete two-candidate
topology and deterministic objective, the hypotheses hold and the search
returns combination `[B]` with score `7` after 2 solves. -/
theorem c4_witness :
    (pyProduct (w4topology.branches.map Prod.snd)).length =
        ((w4topology.branches.map Prod.snd).map List.length).prod ∧
      ∃ l1 c l2 mf,
        pyProduct (w4topology.branches.map Prod.snd) = l1 ++ c :: l2 ∧
        (∀ c' ∈ l1, w4F c' < w4F c) ∧ (∀ c' ∈ l2, w4F c' ≤ w4F c) ∧
        optimize_lineup_bruteforce (objSrv w4f) w4topology true [] (∅, 0) =
          Except.ok (some (mkChosen (w4topology.branches.map Prod.fst) c), w4F c,
            (mf, 0 + (pyProduct (w4topology.branches.map Prod.snd)).length)) :=
  c4_bruteforce_amended w4f w4F w4topology true [] ∅ 0 w4_hdet
    ⟨[w4pipeB], by decide, by decide⟩

/-- Claim C1 (amended): there is no error isolation in the brute-force
combination loop — if applying/evaluating some combination raises (all earlier
combinations having succeeded), `optimize_lineup_bruteforce` raises that very
error instead of continuing with the remaining combinations. -/
theorem c1_bruteforce_error_aborts {σ : Type} (srv : Srv σ) (topology : Topology)
    (force_unmask_trunks : Bool) (locked_trunks : List String) (s0 : σ)
    (l1 : List (List BranchPipe)) (c : List BranchPipe) (l2 : List (List BranchPipe))
    (acc : ℚ × Option Lineup × σ) (e : Err)
    (hprod : pyProduct (topology.branches.map Prod.snd) = l1 ++ c :: l2)
    (hpre : l1.foldlM (comboStep srv topology force_unmask_trunks locked_trunks
        (topology.branches.map Prod.fst)) ((-1 : ℚ), (none : Option Lineup), s0) = Except.ok acc)
    (hstep : comboStep srv topology force_unmask_trunks locked_trunks
        (topology.branches.map Prod.fst) acc c = Except.error e) :
    optimize_lineup_bruteforce srv topology force_unmask_trunks locked_trunks s0 =
      Except.error e := by
  simp only [optimize_lineup_bruteforce]
  rw [hprod, foldlM_error _ l1 c l2 _ acc e hpre hstep, error_bind]

/-- First candidate of the C1 counterexample topology. -/
def c1pipeA : BranchPipe := { uid := "A", type := "PIPE", label := "pipe A" }

/-- Second candidate of the C1 counterexample topology. -/
def c1pipeB : BranchPipe := { uid := "B", type := "PIPE", label := "pipe B" }

/-- C1 counterexample topology: one branch point, candidates `A` and `B`. -/
def c1topology : Topology := { trunks := [], branches := [("J1", [c1pipeA, c1pipeB])] }

/-- The C1 oracle's failure condition: the solve raises exactly while pipe `B`
is masked, i.e. during the trial of combination `[A]` (the first one). -/
def c1bad (m : Finset String) : Bool := decide ("B" ∈ m)

/-- The C1 oracle's objective (irrelevant to the abort). -/
def c1f : Finset String → ℚ := fun _ => 0

/-- Claim C1 (counterexample).  The claim states that a solver error during one
combination only excludes that combination and the loop continues.  On the
code there is no try/except around the combination loop: with two combinations
where evaluating the first (`[A]`) raises, the whole search raises — even
though the second combination (`[B]`) is perfectly evaluable, as the second
conjunct shows. -/
theorem c1_counterexample :
    optimize_lineup_bruteforce (errSolveSrv c1f c1bad) c1topology true [] (∅, 0) =
        Except.error "PetexException: DoCmd: GAP.SOLVENETWORK()" ∧
      evaluate_lineup (errSolveSrv c1f c1bad)
          (applyMask c1topology (mkChosen (c1topology.branches.map Prod.fst) [c1pipeB]) true [] ∅, 1) =
        Except.ok (0, (applyMask c1topology (mkChosen (c1topology.branches.map Prod.fst) [c1pipeB]) true [] ∅, 2)) := by
  have hmA : applyMask c1topology (mkChosen (c1topology.branches.map Prod.fst) [c1pipeA]) true [] ∅
      = {"B"} := by decide
  have hmB : applyMask c1topology (mkChosen (c1topology.branches.map Prod.fst) [c1pipeB]) true [] ∅
      = {"A"} := by decide
  constructor
  · have hstep : comboStep (errSolveSrv c1f c1bad) c1topology true []
        (c1topology.branches.map Prod.fst) ((-1 : ℚ), (none : Option Lineup), (∅, 0)) [c1pipeA] =
        Except.error "PetexException: DoCmd: GAP.SOLVENETWORK()" := by
      simp only [comboStep, apply_lineup_errSolveSrv, ok_bind, hmA, evaluate_lineup_errSolveSrv]
      rw [if_pos (by decide), error_bind]
    simp only [optimize_lineup_bruteforce]
    have hprod : pyProduct (c1topology.branches.map Prod.snd) = [[c1pipeA], [c1pipeB]] := by decide
    rw [hprod, List.foldlM_cons, hstep, error_bind, error_bind]
  · rw [hmB, evaluate_lineup_errSolveSrv, if_neg (by decide)]
    rfl

/-- Witness for claim C1's amended theorem: at the concrete C1 oracle and
topology, the first combination's evaluation raises and the theorem yields the
abort of the whole search. -/
theorem c1_witness :
    optimize_lineup_bruteforce (errSolveSrv c1f c1bad) c1topology true [] (∅, 0) =
      Except.error "PetexException: DoCmd: GAP.SOLVENETWORK()" := by
  apply c1_bruteforce_error_aborts (errSolveSrv c1f c1bad) c1topology true [] (∅, 0)
    [] [c1pipeA] [[c1pipeB]] ((-1 : ℚ), (none : Option Lineup), (∅, 0))
  · decide
  · rfl
  · have hmA : applyMask c1topology (mkChosen (c1topology.branches.map Prod.fst) [c1pipeA]) true [] ∅
        = {"B"} := by decide
    simp only [comboStep, apply_lineup_errSolveSrv, ok_bind, hmA, evaluate_lineup_errSolveSrv]
    rw [if_pos (by decide), error_bind]

/-- One greedy trial on the deterministic scoring oracle, computed. -/
theorem trialStep_objSrv (f : Finset String → ℚ) (topology : Topology)
    (force_unmask_trunks : Bool) (locked_trunks : List String) (chosen_branches : Lineup)
    (bp : String) (q : ℚ) (bc : Option BranchPipe) (tc : Option Lineup)
    (m : Finset String) (k : ℕ) (pipe : BranchPipe) :
    trialStep (objSrv f) topology force_unmask_trunks locked_trunks chosen_branches bp
        (q, bc, tc, (m, k)) pipe =
      Except.ok
        (if f (applyMask topology (dictInsert chosen_branches bp pipe) force_unmask_trunks locked_trunks m) > q
         then (f (applyMask topology (dictInsert chosen_branches bp pipe) force_unmask_trunks locked_trunks m),
               some pipe, some (dictInsert chosen_branches bp pipe),
               (applyMask topology (dictInsert chosen_branches bp pipe) force_unmask_trunks locked_trunks m, k + 1))
         else (q, bc, some (dictInsert chosen_branches bp pipe),
               (applyMask topology (dictInsert chosen_branches bp pipe) force_unmask_trunks locked_trunks m, k + 1))) := by
  simp only [trialStep, apply_lineup_objSrv, ok_bind, evaluate_lineup_objSrv]
  by_cases hq : f (applyMask topology (dictInsert chosen_branches bp pipe) force_unmask_trunks locked_trunks m) > q <;>
    simp [hq, pure, Except.pure]

/-- `getLast?` of a cons, eliminated: the head only matters when the tail is
empty. -/
theorem getLast?_cons_elim {α β : Type} (p : α) (ps : List α) (tc : β) (g : α → β) :
    ((p :: ps).getLast?.elim tc g : β) = ps.getLast?.elim (g p) g := by
  cases ps with
  | nil => rfl
  | cons x xs =>
      obtain ⟨y, hy⟩ := Option.isSome_iff_exists.mp
        (List.getLast?_isSome.mpr (List.cons_ne_nil x xs))
      simp [List.getLast?_cons_cons, hy]

/-- The greedy candidate loop for one branch point on the deterministic scoring
oracle: the pure strict-improvement fold, one solve per candidate, with the
Python `trial_choice` variable left at the last candidate's trial.  `hdet`
makes the trial scores independent of the incoming masked set. -/
theorem trial_fold_objSrv (f : Finset String → ℚ) (F : Lineup → ℚ) (topology : Topology)
    (force_unmask_trunks : Bool) (locked_trunks : List String) (chosen_branches : Lineup)
    (bp : String) (pipes : List BranchPipe)
    (hdet : ∀ p ∈ pipes, ∀ m, f (applyMask topology (dictInsert chosen_branches bp p)
      force_unmask_trunks locked_trunks m) = F (dictInsert chosen_branches bp p))
    (q : ℚ) (bc : Option BranchPipe) (tc : Option Lineup) (m : Finset String) (k : ℕ) :
    pipes.foldlM (trialStep (objSrv f) topology force_unmask_trunks locked_trunks chosen_branches bp)
        (q, bc, tc, (m, k)) =
      Except.ok ((runBest (q, bc) (pipes.map (fun p => (F (dictInsert chosen_branches bp p), p)))).1,
        (runBest (q, bc) (pipes.map (fun p => (F (dictInsert chosen_branches bp p), p)))).2,
        pipes.getLast?.elim tc (fun p => some (dictInsert chosen_branches bp p)),
        (pipes.foldl (fun m p => applyMask topology (dictInsert chosen_branches bp p)
          force_unmask_trunks locked_trunks m) m, k + pipes.length)) := by
  induction pipes generalizing q bc tc m k with
  | nil => simp [runBest, pure, Except.pure]
  | cons p ps ih =>
      have hp := hdet p (List.mem_cons_self p ps) m
      have ihps := ih (fun p' hp' => hdet p' (List.mem_cons_of_mem _ hp'))
      rw [List.foldlM_cons, trialStep_objSrv, ok_bind, hp]
      rw [getLast?_cons_elim]
      by_cases hq : F (dictInsert chosen_branches bp p) > q
      · rw [if_pos hq, ihps]
        simp [runBest, List.foldl_cons, hp, hq, Nat.add_assoc, Nat.add_comm 1 ps.length]
      · rw [if_neg hq, ihps]
        simp [runBest, List.foldl_cons, hp, hq, Nat.add_assoc, Nat.add_comm 1 ps.length]

/-- The greedy selection process described by the spec, as a relation: at each
branch point, in snapshot order, the fixed candidate is the earliest one
maximising the objective with all earlier choices held fixed and all later
branch points undecided (hence fully masked by `apply_lineup`). -/
inductive GreedyRel (F : Lineup → ℚ) :
    List (String × List BranchPipe) → Lineup → Lineup → Prop where
  | nil (chosen : Lineup) : GreedyRel F [] chosen chosen
  | cons (chosen : Lineup) (kv : String × List BranchPipe)
      (rest : List (String × List BranchPipe)) (L : Lineup) (best : BranchPipe)
      (l1 l2 : List BranchPipe) :
      kv.2 = l1 ++ best :: l2 →
      (∀ p ∈ l1, F (dictInsert chosen kv.1 p) < F (dictInsert chosen kv.1 best)) →
      (∀ p ∈ kv.2, F (dictInsert chosen kv.1 p) ≤ F (dictInsert chosen kv.1 best)) →
      GreedyRel F rest (dictInsert chosen kv.1 best) L →
      GreedyRel F (kv :: rest) chosen L

/-- The greedy branch-point loop on the deterministic scoring oracle: solves
once per candidate, fixes at each branch point the earliest best candidate
(`GreedyRel`), and leaves `trial_choice` set whenever at least one branch point
was processed. -/
theorem greedy_fold_objSrv (f : Finset String → ℚ) (F : Lineup → ℚ) (topology : Topology)
    (force_unmask_trunks : Bool) (locked_trunks : List String)
    (hdet : ∀ chosen m, f (applyMask topology chosen force_unmask_trunks locked_trunks m) = F chosen)
    (hpos : ∀ chosen, -1 < F chosen)
    (l : List (String × List BranchPipe)) (hne : ∀ kv ∈ l, kv.2 ≠ [])
    (chosen : Lineup) (t0 : Option Lineup) (m : Finset String) (k : ℕ) :
    ∃ L tfin mf,
      l.foldlM (bpStep (objSrv f) topology force_unmask_trunks locked_trunks) (chosen, t0, (m, k)) =
        Except.ok (L, tfin, (mf, k + (l.map (fun kv => kv.2.length)).sum)) ∧
      GreedyRel F l chosen L ∧
      (l ≠ [] → ∃ lt, tfin = some lt) ∧ (l = [] → tfin = t0) := by
  induction l generalizing chosen t0 m k with
  | nil =>
      refine ⟨chosen, t0, m, ?_, GreedyRel.nil chosen, by simp, fun _ => rfl⟩
      simp [pure, Except.pure]
  | cons kv rest ih =>
      have hkv : kv.2 ≠ [] := hne kv (List.mem_cons_self kv rest)
      have hdetkv : ∀ p ∈ kv.2, ∀ m', f (applyMask topology (dictInsert chosen kv.1 p)
          force_unmask_trunks locked_trunks m') = F (dictInsert chosen kv.1 p) :=
        fun p _ m' => hdet _ m'
      obtain ⟨p0, hp0⟩ := List.exists_mem_of_ne_nil _ hkv
      obtain ⟨l1, best, l2, heq, _, hpre, hpost, hrb⟩ :=
        runBest_found (fun p => F (dictInsert chosen kv.1 p)) id kv.2 (-1) none
          ⟨p0, hp0, hpos _⟩
      obtain ⟨lastp, hlast⟩ := Option.isSome_iff_exists.mp (List.getLast?_isSome.mpr hkv)
      have hstep : bpStep (objSrv f) topology force_unmask_trunks locked_trunks
          (chosen, t0, (m, k)) kv =
          Except.ok (dictInsert chosen kv.1 best, some (dictInsert chosen kv.1 lastp),
            (kv.2.foldl (fun m p => applyMask topology (dictInsert chosen kv.1 p)
              force_unmask_trunks locked_trunks m) m, k + kv.2.length)) := by
        simp only [bpStep]
        rw [trial_fold_objSrv f F topology force_unmask_trunks locked_trunks chosen kv.1 kv.2
          hdetkv (-1) none t0 m k, ok_bind]
        have hrb' : runBest (-1, none) (kv.2.map (fun p => (F (dictInsert chosen kv.1 p), p))) =
            (F (dictInsert chosen kv.1 best), some best) := by
          simpa using hrb
        rw [hrb', hlast]
        rfl
      obtain ⟨L, tfin, mf, hfold, hrel, hne', he'⟩ :=
        ih (fun kv' h => hne kv' (List.mem_cons_of_mem _ h)) (dictInsert chosen kv.1 best)
        (some (dictInsert chosen kv.1 lastp))
        (kv.2.foldl (fun m p => applyMask topology (dictInsert chosen kv.1 p)
          force_unmask_trunks locked_trunks m) m) (k + kv.2.length)
      refine ⟨L, tfin, mf, ?_, ?_, ?_, by simp⟩
      · rw [List.foldlM_cons, hstep, ok_bind, hfold]
        simp [Nat.add_assoc]
      · refine GreedyRel.cons chosen kv rest L best l1 l2 heq hpre ?_ hrel
        intro p hp
        rw [heq] at hp
        rcases List.mem_append.mp hp with hp | hp
        · exact le_of_lt (hpre p hp)
        · rcases List.mem_cons.mp hp with rfl | hp
          · exact le_rfl
          · exact hpost p hp
      · intro _
        rcases List.eq_nil_or_concat rest with rfl | hrest
        · exact ⟨dictInsert chosen kv.1 lastp, he' rfl⟩
        · apply hne'
          obtain ⟨ys, y, rfl⟩ := hrest
          simp

/-- First candidate of the C2 topology. -/
def c2pipeA : BranchPipe := { uid := "A", type := "PIPE", label := "pipe A" }

/-- Second candidate of the C2 topology. -/
def c2pipeB : BranchPipe := { uid := "B", type := "PIPE", label := "pipe B" }

/-- C2 topology: one branch point, candidates `A` then `B`. -/
def c2topology : Topology := { trunks := [], branches := [("J1", [c2pipeA, c2pipeB])] }

/-- C2 objective: trials that mask `B` (i.e. choose `A`) score 10, trials that
leave `B` unmasked but mask `A` (i.e. choose `B`) score 5. -/
def c2f (m : Finset String) : ℚ := if "B" ∈ m then 10 else if "A" ∈ m then 5 else 0

/-- Claim C2 (code bug).  The greedy optimizer fixes candidate `A` (score 10 >
5) and returns the lineup `{J1: A}` — but the final apply on line 303 of
gap_tools.py uses the leftover variable `trial_choice = {J1: B}` (the last
trial), so the reported score is 5, the score of `B`'s trial, while the
returned lineup `{J1: A}` actually evaluates to 10. -/
theorem c2_greedy_final_score_mismatch :
    optimize_lineup_greedy (objSrv c2f) c2topology true [] (∅, 0) =
        Except.ok ([("J1", c2pipeA)], 5, ({"A"}, 3)) ∧
      c2f (applyMask c2topology [("J1", c2pipeA)] true [] ∅) = 10 ∧
      ((5 : ℚ) ≠ 10) := by
  have ha : applyMask c2topology (dictInsert [] "J1" c2pipeA) true [] ∅ = {"B"} := by decide
  have hb : applyMask c2topology (dictInsert [] "J1" c2pipeB) true [] {"B"} = {"A"} := by decide
  have hfin : applyMask c2topology [("J1", c2pipeB)] true [] {"A"} = {"A"} := by decide
  have hfa : c2f {"B"} = 10 := by decide
  have hfb : c2f {"A"} = 5 := by decide
  refine ⟨?_, by decide, by decide⟩
  simp only [optimize_lineup_greedy]
  rw [show c2topology.branches = [("J1", [c2pipeA, c2pipeB])] from rfl]
  simp only [List.foldlM_cons, List.foldlM_nil, bpStep]
  rw [trialStep_objSrv, ha, hfa, if_pos (show (10 : ℚ) > -1 by decide)]
  simp only [ok_bind]
  rw [trialStep_objSrv, hb, hfb, if_neg (show ¬ (5 : ℚ) > 10 by decide)]
  simp only [ok_bind, pure, Except.pure]
  rw [apply_lineup_objSrv]
  simp only [ok_bind]
  rw [show dictInsert [] "J1" c2pipeB = [("J1", c2pipeB)] from rfl, hfin,
    evaluate_lineup_objSrv, hfb]
  simp only [ok_bind]
  rfl

/-- Claim C6 (amended): on a topology with at least one branch point, all
candidate lists nonempty, and a deterministic objective whose scores exceed the
initial sentinel `-1`, `optimize_lineup_greedy` performs exactly one trial
apply+evaluate per candidate — `Σ|candidates(bp)|` solves, branch points in
snapshot order, undecided branch points fully masked — plus one final
apply+evaluate, and the returned lineup fixes at every branch point the
earliest candidate maximising the objective *given the earlier choices and the
later branch points masked* (`GreedyRel`).  The returned lineup need NOT be a
local optimum of the full objective under single-branch-point replacement (see
the counterexample). -/
theorem c6_greedy_amended (f : Finset String → ℚ) (F : Lineup → ℚ) (topology : Topology)
    (force_unmask_trunks : Bool) (locked_trunks : List String) (m0 : Finset String) (k0 : ℕ)
    (hdet : ∀ chosen m, f (applyMask topology chosen force_unmask_trunks locked_trunks m) = F chosen)
    (hpos : ∀ chosen, -1 < F chosen)
    (hne : ∀ kv ∈ topology.branches, kv.2 ≠ [])
    (hbp : topology.branches ≠ []) :
    ∃ L q mf,
      optimize_lineup_greedy (objSrv f) topology force_unmask_trunks locked_trunks (m0, k0) =
        Except.ok (L, q, (mf, k0 + ((topology.branches.map (fun kv => kv.2.length)).sum + 1))) ∧
      GreedyRel F topology.branches [] L := by
  obtain ⟨L, tfin, mf, hfold, hrel, hne', _⟩ :=
    greedy_fold_objSrv f F topology force_unmask_trunks locked_trunks hdet hpos
      topology.branches hne [] none m0 k0
  obtain ⟨lt, rfl⟩ := hne' hbp
  refine ⟨L, F lt, applyMask topology lt force_unmask_trunks locked_trunks mf, ?_, hrel⟩
  simp only [optimize_lineup_greedy]
  rw [hfold]
  simp only [ok_bind]
  rw [apply_lineup_objSrv]
  simp only [ok_bind]
  rw [evaluate_lineup_objSrv, hdet]
  simp only [ok_bind, pure, Except.pure, Nat.add_assoc]

/-- The C6/C4 witness objective, on lineups: choosing `B` at `J1` scores 7,
anything else 3 (matches `w4f` through `apply_lineup`). -/
def w6F (chosen : Lineup) : ℚ :=
  match lookupBp chosen "J1" with
  | some ch => if "B" = ch.uid then 7 else 3
  | none => 3

/-- Determinism of the witness objective: the masked set left by
`apply_lineup` decides `w4f` purely from the lineup. -/
theorem w6_hdet : ∀ chosen m, w4f (applyMask w4topology chosen true [] m) = w6F chosen := by
  intro chosen m
  cases hl : lookupBp chosen "J1" with
  | none =>
      have hcmds : applyCommands w4topology chosen true [] = [Cmd.mask "A", Cmd.mask "B"] := by
        simp [applyCommands, w4topology, w4pipeA, w4pipeB, TWO_PORT_TYPES, specBranchCmd, hl]
      rw [applyMask, hcmds]
      simp [maskStep, w4f, w6F, hl]
  | some ch =>
      by_cases hA : ("A" : String) = ch.uid
      · have hB : ¬ ("B" : String) = ch.uid := by
          rw [← hA]
          decide
        have hcmds : applyCommands w4topology chosen true [] = [Cmd.unmask "A", Cmd.mask "B"] := by
          simp [applyCommands, w4topology, w4pipeA, w4pipeB, TWO_PORT_TYPES, specBranchCmd, hl, hA, hB]
        rw [applyMask, hcmds]
        simp [maskStep, w4f, w6F, hl, hB]
      · by_cases hB : ("B" : String) = ch.uid
        · have hcmds : applyCommands w4topology chosen true [] = [Cmd.mask "A", Cmd.unmask "B"] := by
            simp [applyCommands, w4topology, w4pipeA, w4pipeB, TWO_PORT_TYPES, specBranchCmd, hl, hA, hB]
          rw [applyMask, hcmds]
          simp [maskStep, w4f, w6F, hl, hB, Finset.not_mem_erase]
        · have hcmds : applyCommands w4topology chosen true [] = [Cmd.mask "A", Cmd.mask "B"] := by
            simp [applyCommands, w4topology, w4pipeA, w4pipeB, TWO_PORT_TYPES, specBranchCmd, hl, hA, hB]
          rw [applyMask, hcmds]
          simp [maskStep, w4f, w6F, hl, hB]

/-- All scores of the witness objective beat the sentinel. -/
theorem w6_hpos : ∀ chosen, (-1 : ℚ) < w6F chosen := by
  intro chosen
  unfold w6F
  cases lookupBp chosen "J1" with
  | none => norm_num
  | some ch =>
      by_cases hB : ("B" : String) = ch.uid <;> simp [hB] <;> norm_num

/-- Witness for claim C6's amended theorem at the concrete one-branch-point
topology and deterministic objective. -/
theorem c6_witness :
    ∃ L q mf,
      optimize_lineup_greedy (objSrv w4f) w4topology true [] (∅, 0) =
        Except.ok (L, q, (mf, 0 + ((w4topology.branches.map (fun kv => kv.2.length)).sum + 1))) ∧
      GreedyRel w6F w4topology.branches [] L :=
  c6_greedy_amended w4f w6F w4topology true [] ∅ 0 w6_hdet w6_hpos
    (by decide) (by decide)

/-- First candidate at branch point `J1` of the C6 topology. -/
def c6a1 : BranchPipe := { uid := "A1", type := "PIPE", label := "pipe A1" }

/-- Second candidate at branch point `J1` of the C6 topology. -/
def c6a2 : BranchPipe := { uid := "A2", type := "PIPE", label := "pipe A2" }

/-- Sole candidate at branch point `J2` of the C6 topology. -/
def c6b1 : BranchPipe := { uid := "B1", type := "PIPE", label := "pipe B1" }

/-- C6 topology: branch point `J1` with candidates `A1`, `A2`, then branch
point `J2` with single candidate `B1`. -/
def c6topology : Topology :=
  { trunks := [], branches := [("J1", [c6a1, c6a2]), ("J2", [c6b1])] }

/-- C6 objective, designed so that the trial of `A1` (with `J2` masked) beats
the trial of `A2`, yet the full lineup `{J1:A2, J2:B1}` beats the full lineup
`{J1:A1, J2:B1}`. -/
def c6f (m : Finset String) : ℚ :=
  if "A2" ∈ m ∧ "B1" ∈ m then 10
  else if "A1" ∈ m ∧ "B1" ∈ m then 5
  else if "A1" ∈ m then 7
  else if "A2" ∈ m then 1
  else 0

/-- Claim C6 (counterexample).  The claim states the returned lineup is a local
optimum under single-branch-point replacement.  The code's greedy pass fixes
`A1` at `J1` because its trial (with `J2` still masked) scores 10 versus 5, but
the returned full lineup `{J1:A1, J2:B1}` evaluates to 1, while replacing only
the `J1` choice by `A2` evaluates to 7 — the returned lineup is not a local
optimum. -/
theorem c6_counterexample :
    optimize_lineup_greedy (objSrv c6f) c6topology true [] (∅, 0) =
        Except.ok ([("J1", c6a1), ("J2", c6b1)], 1, ({"A2"}, 4)) ∧
      c6f (applyMask c6topology [("J1", c6a1), ("J2", c6b1)] true [] ∅) = 1 ∧
      c6f (applyMask c6topology [("J1", c6a2), ("J2", c6b1)] true [] ∅) = 7 ∧
      ((1 : ℚ) < 7) := by
  have h1 : applyMask c6topology (dictInsert [] "J1" c6a1) true [] ∅ = {"A2", "B1"} := by decide
  have h2 : applyMask c6topology (dictInsert [] "J1" c6a2) true [] {"A2", "B1"} = {"A1", "B1"} := by
    decide
  have h3 : applyMask c6topology (dictInsert [("J1", c6a1)] "J2" c6b1) true [] {"A1", "B1"}
      = {"A2"} := by decide
  have h4 : applyMask c6topology [("J1", c6a1), ("J2", c6b1)] true [] {"A2"} = {"A2"} := by decide
  have hf1 : c6f {"A2", "B1"} = 10 := by decide
  have hf2 : c6f {"A1", "B1"} = 5 := by decide
  have hf3 : c6f {"A2"} = 1 := by decide
  refine ⟨?_, by decide, by decide, by decide⟩
  simp only [optimize_lineup_greedy]
  rw [show c6topology.branches = [("J1", [c6a1, c6a2]), ("J2", [c6b1])] from rfl]
  simp only [List.foldlM_cons, List.foldlM_nil, bpStep]
  rw [trialStep_objSrv, h1, hf1, if_pos (show (10 : ℚ) > -1 by decide)]
  simp only [ok_bind]
  rw [trialStep_objSrv, h2, hf2, if_neg (show ¬ (5 : ℚ) > 10 by decide)]
  simp only [ok_bind, pure, Except.pure]
  rw [show dictInsert [] "J1" c6a1 = [("J1", c6a1)] from rfl]
  rw [trialStep_objSrv, h3, hf3, if_pos (show (1 : ℚ) > -1 by decide)]
  simp only [ok_bind, pure, Except.pure]
  rw [apply_lineup_objSrv]
  simp only [ok_bind]
  rw [show dictInsert [("J1", c6a1)] "J2" c6b1 = [("J1", c6a1), ("J2", c6b1)] from rfl, h4,
    evaluate_lineup_objSrv, hf3]
  simp only [ok_bind]

/-- Witness for claim C3's amended theorem: at two separators with the read of
separator 0 raising, the whole evaluation raises (third conjunct applied at
`n = 2`, `i = 0`). -/
theorem c3_witness :
    evaluate_lineup (sepSrv (some ((2 : ℕ) : ℚ)) c3reads) 0 =
      Except.error "PetexException: DoGet: OilRate" :=
  c3_evaluate_lineup_amended.2.2 2 c3reads 0 0 "PetexException: DoGet: OilRate"
    (by norm_num) (fun j hj => absurd hj (Nat.not_lt_zero j)) rfl

/-! ## Trunk/branch classifier (`find_trunks_and_branches`, gap_tools.py 55-88) -/

/-- One two-port equipment edge, an entry `uid: (enda, endb, etype)` of the
`edges` dict built by `get_all_edges_with_uids`; the dict keys are unique, so
an edge list is taken together with a `Nodup` hypothesis on its uids where it
matters. -/
structure Edge where
  uid : String
  enda : String
  endb : String
  etype : String
deriving DecidableEq, Repr, Inhabited

/-- The mutable state of the classifier DFS: the shared `visited` set (kept as
the list of nodes in first-visit order — Python uses a set, and only membership
is ever consulted, but the list records that each node is expanded at most
once), the `trunks` set and the `branches` defaultdict (association list in
key-insertion order). -/
structure ClsSt where
  visited : List String
  trunks : Finset String
  branches : List (String × List String)
deriving DecidableEq

/-- `branches[node].append(pipe_uid)` on the defaultdict. -/
def branchAdd (bs : List (String × List String)) (bp uid : String) :
    List (String × List String) :=
  if bs.any (fun kv => kv.1 == bp) then
    bs.map (fun kv => if kv.1 == bp then (kv.1, kv.2 ++ [uid]) else kv)
  else bs ++ [(bp, [uid])]

/-- Termination measure of the classifier DFS: unvisited graph sources, each
worth one batch of at most `edges.length` pushes, plus the pending worklist. -/
def clsMeasure (edges : List Edge) (pending : List String) (st : ClsSt) : ℕ :=
  ((edges.map Edge.enda).toFinset \ st.visited.toFinset).card * (edges.length + 1)
    + pending.length

/-- Arithmetic of the classifier measure: expanding an unvisited source
strictly decreases it even after pushing `k ≤ edges.length` successors. -/
theorem dfs_measure_lt (a a' E k p : ℕ) (h1 : a' < a) (h2 : k ≤ E) :
    a' * (E + 1) + (k + p) < a * (E + 1) + (p + 1) := by
  have h3 : a' * (E + 1) + (k + p) < a' * (E + 1) + ((E + 1) + p) :=
    Nat.add_lt_add_left (by omega) _
  have h4 : a' * (E + 1) + ((E + 1) + p) = (a' + 1) * (E + 1) + p := by ring
  have h5 : (a' + 1) * (E + 1) + p ≤ a * (E + 1) + p :=
    Nat.add_le_add_right (Nat.mul_le_mul_right _ (Nat.succ_le_of_lt h1)) p
  calc a' * (E + 1) + (k + p) < (a' + 1) * (E + 1) + p := h4 ▸ h3
    _ ≤ a * (E + 1) + p := h5
    _ < a * (E + 1) + (p + 1) := Nat.add_lt_add_left (Nat.lt_succ_self _) _

/-- A strict drop in the unvisited count strictly drops its weighted term. -/
theorem mul_succ_lt_of_lt (a a' E : ℕ) (h : a' < a) : a' * (E + 1) < a * (E + 1) := by
  have hle := Nat.mul_le_mul_right (E + 1) (Nat.succ_le_of_lt h)
  calc a' * (E + 1) < a' * (E + 1) + (E + 1) := by omega
    _ = (a' + 1) * (E + 1) := by ring
    _ ≤ a * (E + 1) := hle

/-- Appending a fresh node to the visited list inserts it into the set view. -/
theorem visited_append_toFinset (v : List String) (node : String) :
    (v ++ [node]).toFinset = insert node v.toFinset := by
  simp [List.toFinset_append, Finset.insert_eq, Finset.union_comm]

/-- The unvisited-source count drops when an unvisited source is visited. -/
theorem card_sdiff_insert_lt (S : Finset String) (T : Finset String) (node : String)
    (hn : node ∈ S) (hv : node ∉ T) :
    (S \ insert node T).card < (S \ T).card := by
  rw [Finset.sdiff_insert]
  exact Finset.card_erase_lt_of_mem (Finset.mem_sdiff.mpr ⟨hn, hv⟩)

/-- The unvisited-source count ignores visits of non-sources. -/
theorem sdiff_insert_of_not_mem (S : Finset String) (T : Finset String) (node : String)
    (hn : node ∉ S) : S \ insert node T = S \ T := by
  rw [Finset.sdiff_insert]
  exact Finset.erase_eq_of_not_mem (fun h => hn (Finset.mem_sdiff.mp h).1)

/-- A node with a nonempty adjacency batch is a source. -/
theorem mem_sources_of_filter_cons (edges : List Edge) (node : String) (e : Edge)
    (outs : List Edge) (houts : edges.filter (fun e => e.enda == node) = e :: outs) :
    node ∈ (edges.map Edge.enda).toFinset := by
  have he : e ∈ edges.filter (fun e => e.enda == node) := by
    rw [houts]
    exact List.mem_cons_self e outs
  have hmem := List.mem_of_mem_filter he
  have heq : e.enda = node := by simpa using List.of_mem_filter he
  simp only [List.mem_toFinset, List.mem_map]
  exact ⟨e, hmem, heq⟩

/-- The inner recursion of `find_trunks_and_branches` (gap_tools.py, lines
69-83), in worklist form: the recursive `dfs(node)` call structure is realised
by pushing the successor nodes onto the front of a pending list (preserving
depth-first order).  An already-visited node is skipped; an unvisited node is
added to `visited` and its outgoing edges `outs` are classified exactly as in
the source — `len(outs) == 1` puts the single edge into `trunks`,
`len(outs) > 1` appends every out-edge to `branches[node]` in edge order, no
out-edge classifies nothing — and its successors are expanded next.  Per-key
`branches` contents and the final sets agree with the recursive Python
formulation because each node is expanded exactly once. -/
def dfsStack (edges : List Edge) : List String → ClsSt → ClsSt
  | [], st => st
  | node :: rest, st =>
    if hvis : node ∈ st.visited then dfsStack edges rest st
    else
      let st1 : ClsSt := { st with visited := st.visited ++ [node] }
      let outs := edges.filter (fun e => e.enda == node)
      if h1 : outs.length = 1 then
        dfsStack edges (outs.headI.endb :: rest)
          { st1 with trunks := insert outs.headI.uid st1.trunks }
      else if h2 : 1 < outs.length then
        dfsStack edges (outs.map Edge.endb ++ rest)
          { st1 with branches := outs.foldl (fun bs e => branchAdd bs node e.uid) st1.branches }
      else
        dfsStack edges rest st1
termination_by pending st => clsMeasure edges pending st
decreasing_by
  · simp only [clsMeasure, List.length_cons]
    exact Nat.add_lt_add_left (Nat.lt_succ_self _) _
  · have h1' : (List.filter (fun e => e.enda == node) edges).length = 1 := h1
    have hne : edges.filter (fun e => e.enda == node) ≠ [] := by
      intro hnil
      rw [hnil] at h1'
      simp at h1'
    obtain ⟨e, he⟩ := List.exists_mem_of_ne_nil _ hne
    have hsrc : node ∈ (edges.map Edge.enda).toFinset := by
      simp only [List.mem_toFinset, List.mem_map]
      exact ⟨e, List.mem_of_mem_filter he, by simpa using List.of_mem_filter he⟩
    have hvtf : node ∉ st.visited.toFinset := by simpa using hvis
    simp only [clsMeasure, List.length_cons, visited_append_toFinset]
    exact Nat.add_lt_add_right
      (mul_succ_lt_of_lt _ _ _ (card_sdiff_insert_lt _ _ _ hsrc hvtf)) _
  · have h2' : 1 < (List.filter (fun e => e.enda == node) edges).length := h2
    have hne : edges.filter (fun e => e.enda == node) ≠ [] := by
      intro hnil
      rw [hnil] at h2'
      simp at h2'
    obtain ⟨e, he⟩ := List.exists_mem_of_ne_nil _ hne
    have hsrc : node ∈ (edges.map Edge.enda).toFinset := by
      simp only [List.mem_toFinset, List.mem_map]
      exact ⟨e, List.mem_of_mem_filter he, by simpa using List.of_mem_filter he⟩
    have hvtf : node ∉ st.visited.toFinset := by simpa using hvis
    simp only [clsMeasure, List.length_cons, visited_append_toFinset, List.length_append,
      List.length_map]
    exact dfs_measure_lt _ _ _ _ _
      (card_sdiff_insert_lt _ _ _ hsrc hvtf)
      (List.length_filter_le (fun e => e.enda == node) edges)
  · simp only [clsMeasure, List.length_cons, visited_append_toFinset]
    exact Nat.add_lt_add_of_le_of_lt
      (Nat.mul_le_mul_right _ (Finset.card_le_card
        (Finset.sdiff_subset_sdiff (le_refl _) (Finset.subset_insert _ _))))
      (Nat.lt_succ_self _)

/-- `find_trunks_and_branches(edges, uid_type)` (gap_tools.py, lines 55-88):
run the classifier DFS from every WELL-typed node, sharing one visited set, and
return the trunk set and the branch map. -/
def find_trunks_and_branches (edges : List Edge) (uid_type : List (String × String)) :
    Finset String × List (String × List String) :=
  let wells := (uid_type.filter (fun kv => kv.2 == "WELL")).map Prod.fst
  let st := dfsStack edges wells { visited := [], trunks := ∅, branches := [] }
  (st.trunks, st.branches)

/-- Reachability along the directed `EndA → EndB` edges (every out-edge of
every node is followed, which is exactly what the classifier DFS explores). -/
inductive Reach (edges : List Edge) : String → String → Prop where
  | refl (u : String) : Reach edges u u
  | step {u v : String} {e : Edge} :
      Reach edges u v → e ∈ edges → e.enda = v → Reach edges u e.endb

/-- How many times a pipe uid has been classified in a DFS state: once if it is
in the trunk set, plus once per occurrence in any branch point's candidate
list. -/
def occSt (st : ClsSt) (uid : String) : ℕ :=
  (if uid ∈ st.trunks then 1 else 0) + ((st.branches.map (fun kv => kv.2.count uid)).sum)

/-- The visited list only grows along the DFS. -/
theorem dfsStack_visited_mono (edges : List Edge) (pending : List String) (st : ClsSt) :
    ∀ x ∈ st.visited, x ∈ (dfsStack edges pending st).visited := by
  induction pending, st using dfsStack.induct edges with
  | case1 st => intro x hx; simpa [dfsStack] using hx
  | case2 node rest st hvis ih =>
      intro x hx
      rw [dfsStack.eq_def]
      simp only [dif_pos hvis]
      exact ih x hx
  | case3 node rest st hvis st1 outs h1 ih =>
      intro x hx
      rw [dfsStack.eq_def]
      simp only [dif_neg hvis,
        dif_pos (show (List.filter (fun e => e.enda == node) edges).length = 1 from h1)]
      exact ih x (by simp [hx])
  | case4 node rest st hvis st1 outs h1 h2 ih =>
      intro x hx
      rw [dfsStack.eq_def]
      simp only [dif_neg hvis,
        dif_neg (show ¬ (List.filter (fun e => e.enda == node) edges).length = 1 from h1),
        dif_pos (show 1 < (List.filter (fun e => e.enda == node) edges).length from h2)]
      exact ih x (by simp [hx])
  | case5 node rest st hvis st1 outs h1 h2 ih =>
      intro x hx
      rw [dfsStack.eq_def]
      simp only [dif_neg hvis,
        dif_neg (show ¬ (List.filter (fun e => e.enda == node) edges).length = 1 from h1),
        dif_neg (show ¬ 1 < (List.filter (fun e => e.enda == node) edges).length from h2)]
      exact ih x (by simp [hx])

/-- Every pending node ends up visited. -/
theorem dfsStack_pending_visited (edges : List Edge) (pending : List String) (st : ClsSt) :
    ∀ x ∈ pending, x ∈ (dfsStack edges pending st).visited := by
  induction pending, st using dfsStack.induct edges with
  | case1 st => intro x hx; simp at hx
  | case2 node rest st hvis ih =>
      intro x hx
      rw [dfsStack.eq_def]
      simp only [dif_pos hvis]
      rcases List.mem_cons.mp hx with rfl | hx
      · exact dfsStack_visited_mono edges rest st x hvis
      · exact ih x hx
  | case3 node rest st hvis st1 outs h1 ih =>
      intro x hx
      rw [dfsStack.eq_def]
      simp only [dif_neg hvis,
        dif_pos (show (List.filter (fun e => e.enda == node) edges).length = 1 from h1)]
      rcases List.mem_cons.mp hx with rfl | hx
      · exact dfsStack_visited_mono edges _ _ x (by simp)
      · exact ih x (by simp [hx])
  | case4 node rest st hvis st1 outs h1 h2 ih =>
      intro x hx
      rw [dfsStack.eq_def]
      simp only [dif_neg hvis,
        dif_neg (show ¬ (List.filter (fun e => e.enda == node) edges).length = 1 from h1),
        dif_pos (show 1 < (List.filter (fun e => e.enda == node) edges).length from h2)]
      rcases List.mem_cons.mp hx with rfl | hx
      · exact dfsStack_visited_mono edges _ _ x (by simp)
      · exact ih x (by simp [hx])
  | case5 node rest st hvis st1 outs h1 h2 ih =>
      intro x hx
      rw [dfsStack.eq_def]
      simp only [dif_neg hvis,
        dif_neg (show ¬ (List.filter (fun e => e.enda == node) edges).length = 1 from h1),
        dif_neg (show ¬ 1 < (List.filter (fun e => e.enda == node) edges).length from h2)]
      rcases List.mem_cons.mp hx with rfl | hx
      · exact dfsStack_visited_mono edges _ _ x (by simp)
      · exact ih x hx

/-- Invariant of the worklist DFS: every out-edge of a visited node leads to a
visited or still-pending node. -/
def Closed (edges : List Edge) (st : ClsSt) (pending : List String) : Prop :=
  ∀ u ∈ st.visited, ∀ e ∈ edges, e.enda = u → e.endb ∈ st.visited ∨ e.endb ∈ pending

/-- The DFS drains the pending list while maintaining `Closed`, so the final
visited set is closed under out-edges. -/
theorem dfsStack_closed (edges : List Edge) (pending : List String) (st : ClsSt)
    (h : Closed edges st pending) : Closed edges (dfsStack edges pending st) [] := by
  induction pending, st using dfsStack.induct edges with
  | case1 st => simpa [dfsStack] using h
  | case2 node rest st hvis ih =>
      rw [dfsStack.eq_def]
      simp only [dif_pos hvis]
      apply ih
      intro u hu e he hei
      rcases h u hu e he hei with hv | hp
      · exact Or.inl hv
      · rcases List.mem_cons.mp hp with rfl | hp
        · exact Or.inl hvis
        · exact Or.inr hp
  | case3 node rest st hvis st1 outs h1 ih =>
      rw [dfsStack.eq_def]
      simp only [dif_neg hvis,
        dif_pos (show (List.filter (fun e => e.enda == node) edges).length = 1 from h1)]
      apply ih
      obtain ⟨e0, he0⟩ := List.length_eq_one.mp h1
      have he0' : (List.filter (fun e => e.enda == node) edges) = [e0] := he0
      intro u hu e he hei
      rcases List.mem_append.mp hu with hu | hu
      · rcases h u hu e he hei with hv | hp
        · exact Or.inl (by simp [hv])
        · rcases List.mem_cons.mp hp with rfl | hp
          · exact Or.inl (by simp)
          · exact Or.inr (List.mem_cons_of_mem _ hp)
      · have hun : u = node := by simpa using hu
        rw [hun] at hei
        have hef : e ∈ List.filter (fun e' => e'.enda == node) edges := by
          simp [List.mem_filter, he, hei]
        rw [he0'] at hef
        have he0'' : e = e0 := by simpa using hef
        refine Or.inr ?_
        rw [he0, he0'']
        simp
  | case4 node rest st hvis st1 outs h1 h2 ih =>
      rw [dfsStack.eq_def]
      simp only [dif_neg hvis,
        dif_neg (show ¬ (List.filter (fun e => e.enda == node) edges).length = 1 from h1),
        dif_pos (show 1 < (List.filter (fun e => e.enda == node) edges).length from h2)]
      apply ih
      intro u hu e he hei
      rcases List.mem_append.mp hu with hu | hu
      · rcases h u hu e he hei with hv | hp
        · exact Or.inl (by simp [hv])
        · rcases List.mem_cons.mp hp with rfl | hp
          · exact Or.inl (by simp)
          · exact Or.inr (List.mem_append_right _ hp)
      · have hun : u = node := by simpa using hu
        rw [hun] at hei
        have hef : e ∈ List.filter (fun e' => e'.enda == node) edges := by
          simp [List.mem_filter, he, hei]
        refine Or.inr (List.mem_append_left _ ?_)
        exact List.mem_map.mpr ⟨e, hef, rfl⟩
  | case5 node rest st hvis st1 outs h1 h2 ih =>
      rw [dfsStack.eq_def]
      simp only [dif_neg hvis,
        dif_neg (show ¬ (List.filter (fun e => e.enda == node) edges).length = 1 from h1),
        dif_neg (show ¬ 1 < (List.filter (fun e => e.enda == node) edges).length from h2)]
      apply ih
      have hnil : List.filter (fun e => e.enda == node) edges = [] := by
        have h1' : ¬ (List.filter (fun e => e.enda == node) edges).length = 1 := h1
        have h2' : ¬ 1 < (List.filter (fun e => e.enda == node) edges).length := h2
        have : (List.filter (fun e => e.enda == node) edges).length = 0 := by omega
        exact List.length_eq_zero.mp this
      intro u hu e he hei
      rcases List.mem_append.mp hu with hu | hu
      · rcases h u hu e he hei with hv | hp
        · exact Or.inl (by simp [hv])
        · rcases List.mem_cons.mp hp with rfl | hp
          · exact Or.inl (by simp)
          · exact Or.inr hp
      · have hun : u = node := by simpa using hu
        rw [hun] at hei
        have hef : e ∈ List.filter (fun e' => e'.enda == node) edges := by
          simp [List.mem_filter, he, hei]
        rw [hnil] at hef
        simp at hef

/-- Completeness: every node reachable from an initially pending node is
visited by the DFS started with an empty visited set. -/
theorem dfsStack_reach_visited (edges : List Edge) (wells : List String) (u t : String)
    (hu : u ∈ wells) (hreach : Reach edges u t) :
    t ∈ (dfsStack edges wells { visited := [], trunks := ∅, branches := [] }).visited := by
  have hclosed : Closed edges
      (dfsStack edges wells { visited := [], trunks := ∅, branches := [] }) [] :=
    dfsStack_closed edges wells _ (by intro u hu; simp at hu)
  induction hreach with
  | refl => exact dfsStack_pending_visited edges wells _ u hu
  | step hr he hei ih =>
      rcases hclosed _ ih _ he hei with hv | hp
      · exact hv
      · simp at hp

/-- Total number of occurrences of `x` across all candidate lists. -/
def countSum (bs : List (String × List String)) (x : String) : ℕ :=
  (bs.map (fun kv => kv.2.count x)).sum

/-- `branchAdd` on an absent key appends a fresh singleton entry. -/
theorem branchAdd_of_not_mem (bs : List (String × List String)) (bp u : String)
    (h : bp ∉ bs.map Prod.fst) : branchAdd bs bp u = bs ++ [(bp, [u])] := by
  have hany : ¬ (bs.any (fun kv => kv.1 == bp) = true) := by
    intro hany
    obtain ⟨kv, hkv, hbeq⟩ := List.any_eq_true.mp hany
    exact h (List.mem_map.mpr ⟨kv, hkv, by simpa using hbeq⟩)
  unfold branchAdd
  rw [if_neg hany]

/-- Modifying the (unique) entry of a present key adds exactly one occurrence
of `u` to the total count. -/
theorem countSum_modif (bs : List (String × List String)) (bp u x : String)
    (hnd : (bs.map Prod.fst).Nodup) (h : bp ∈ bs.map Prod.fst) :
    countSum (bs.map (fun kv => if kv.1 == bp then (kv.1, kv.2 ++ [u]) else kv)) x
      = countSum bs x + (if x = u then 1 else 0) := by
  induction bs with
  | nil => simp at h
  | cons kv bs ih =>
      rw [List.map_cons] at h hnd
      by_cases hkv : kv.1 = bp
      · subst hkv
        have hnotbs : kv.1 ∉ bs.map Prod.fst := (List.nodup_cons.mp hnd).1
        have hid : bs.map (fun kv' => if kv'.1 == kv.1 then (kv'.1, kv'.2 ++ [u]) else kv') = bs := by
          have hfun : ∀ kv' ∈ bs,
              (if kv'.1 == kv.1 then (kv'.1, kv'.2 ++ [u]) else kv') = id kv' := by
            intro kv' hkv'
            have hne : ¬ kv'.1 = kv.1 := fun hh => hnotbs (List.mem_map.mpr ⟨kv', hkv', hh⟩)
            simp [hne]
          rw [List.map_congr_left hfun, List.map_id]
        simp only [countSum, List.map_cons, List.sum_cons, hid]
        rw [if_pos (by simp)]
        simp only [List.count_append]
        by_cases hx : x = u <;> simp [hx, List.count_cons, List.count_nil] <;> omega
      · have hbp' : bp ∈ bs.map Prod.fst := (List.mem_cons.mp h).resolve_left
          (fun hh => hkv hh.symm)
        have ih' := ih (List.nodup_cons.mp hnd).2 hbp'
        simp only [countSum, List.map_cons, List.sum_cons] at ih' ⊢
        rw [if_neg (by simpa using hkv)]
        omega

/-- `branchAdd` on a present key (keys unique) keeps the keys and adds exactly
one occurrence of `u`. -/
theorem branchAdd_of_mem (bs : List (String × List String)) (bp u : String)
    (hnd : (bs.map Prod.fst).Nodup) (h : bp ∈ bs.map Prod.fst) :
    (branchAdd bs bp u).map Prod.fst = bs.map Prod.fst ∧
      ∀ x, countSum (branchAdd bs bp u) x = countSum bs x + (if x = u then 1 else 0) := by
  have hany : bs.any (fun kv => kv.1 == bp) = true := by
    obtain ⟨kv, hkv, hfst⟩ := List.mem_map.mp h
    exact List.any_eq_true.mpr ⟨kv, hkv, by simp [hfst]⟩
  constructor
  · unfold branchAdd
    rw [if_pos hany, List.map_map]
    apply List.map_congr_left
    intro kv _
    by_cases hkv : kv.1 = bp <;> simp [hkv]
  · intro x
    unfold branchAdd
    rw [if_pos hany]
    exact countSum_modif bs bp u x hnd h

/-- Folding a batch of appends for one present key. -/
theorem branchAdd_fold_mem (bs : List (String × List String)) (node : String)
    (us : List String) (hnd : (bs.map Prod.fst).Nodup) (hin : node ∈ bs.map Prod.fst) :
    ((us.foldl (fun bs u => branchAdd bs node u) bs).map Prod.fst = bs.map Prod.fst) ∧
      ∀ x, countSum (us.foldl (fun bs u => branchAdd bs node u) bs) x
        = countSum bs x + us.count x := by
  induction us generalizing bs with
  | nil => simp
  | cons u us ih =>
      obtain ⟨hk, hc⟩ := branchAdd_of_mem bs node u hnd hin
      obtain ⟨ihk, ihc⟩ := ih (branchAdd bs node u) (hk ▸ hnd) (hk ▸ hin)
      refine ⟨by rw [List.foldl_cons, ihk, hk], ?_⟩
      intro x
      rw [List.foldl_cons, ihc x, hc x, List.count_cons]
      by_cases hx : x = u
      · simp [hx]
        ring
      · simp [hx]
        exact fun hh => hx hh.symm

/-- Folding a batch of appends for one fresh key: the key is appended once and
the total count grows by the batch's occurrences. -/
theorem branchAdd_fold_not_mem (bs : List (String × List String)) (node : String)
    (us : List String) (hnd : (bs.map Prod.fst).Nodup) (hnot : node ∉ bs.map Prod.fst)
    (hus : us ≠ []) :
    ((us.foldl (fun bs u => branchAdd bs node u) bs).map Prod.fst
        = bs.map Prod.fst ++ [node]) ∧
      ∀ x, countSum (us.foldl (fun bs u => branchAdd bs node u) bs) x
        = countSum bs x + us.count x := by
  cases us with
  | nil => exact absurd rfl hus
  | cons u us =>
      rw [List.foldl_cons, branchAdd_of_not_mem bs node u hnot]
      have hnd' : ((bs ++ [(node, [u])]).map Prod.fst).Nodup := by
        simp only [List.map_append, List.map_cons, List.map_nil]
        rw [List.nodup_append]
        exact ⟨hnd, List.nodup_singleton _, by simpa using hnot⟩
      have hin' : node ∈ (bs ++ [(node, [u])]).map Prod.fst := by simp
      obtain ⟨hk, hc⟩ := branchAdd_fold_mem (bs ++ [(node, [u])]) node us hnd' hin'
      refine ⟨by rw [hk]; simp, ?_⟩
      intro x
      rw [hc x]
      simp only [countSum, List.map_append, List.map_cons, List.map_nil, List.sum_append,
        List.sum_cons, List.sum_nil, List.count_cons]
      by_cases hx : x = u <;> simp [hx, List.count_nil] <;> omega

/-- Uids are unique across the edge dict, so they identify edges. -/
theorem uid_inj (edges : List Edge) (huids : (edges.map Edge.uid).Nodup)
    {e f : Edge} (he : e ∈ edges) (hf : f ∈ edges) (h : e.uid = f.uid) : e = f :=
  List.inj_on_of_nodup_map huids he hf h

/-- The classification invariant: branch keys are unique and visited, and every
edge is classified exactly once iff its source has been visited. -/
def occInv (edges : List Edge) (st : ClsSt) : Prop :=
  (st.branches.map Prod.fst).Nodup ∧
  (∀ k ∈ st.branches.map Prod.fst, k ∈ st.visited) ∧
  ∀ e ∈ edges, occSt st e.uid = if e.enda ∈ st.visited then 1 else 0

/-- The classifier DFS preserves the classification invariant. -/
theorem dfsStack_occInv (edges : List Edge) (huids : (edges.map Edge.uid).Nodup)
    (pending : List String) (st : ClsSt) (hinv : occInv edges st) :
    occInv edges (dfsStack edges pending st) := by
  revert hinv
  induction pending, st using dfsStack.induct edges with
  | case1 st =>
      intro hinv
      simpa [dfsStack] using hinv
  | case2 node rest st hvis ih =>
      intro hinv
      rw [dfsStack.eq_def]
      simp only [dif_pos hvis]
      exact ih hinv
  | case3 node rest st hvis st1 outs h1 ih =>
      intro hinv
      rw [dfsStack.eq_def]
      simp only [dif_neg hvis,
        dif_pos (show (List.filter (fun e => e.enda == node) edges).length = 1 from h1)]
      apply ih
      obtain ⟨e0, he0⟩ := List.length_eq_one.mp h1
      rw [he0]
      show occInv edges
        { visited := st.visited ++ [node], trunks := insert e0.uid st.trunks,
          branches := st.branches }
      have he0' : List.filter (fun e => e.enda == node) edges = [e0] := he0
      obtain ⟨hnd, hkv, hocc⟩ := hinv
      have hE : ∀ e ∈ edges, e.enda = node → e = e0 := by
        intro e he hei
        have hmem : e ∈ List.filter (fun e' => e'.enda == node) edges := by
          simp [List.mem_filter, he, hei]
        rw [he0'] at hmem
        simpa using hmem
      have he0mem : e0 ∈ edges ∧ e0.enda = node := by
        have hmem : e0 ∈ List.filter (fun e' => e'.enda == node) edges := by
          rw [he0']
          simp
        exact ⟨List.mem_of_mem_filter hmem, by simpa using List.of_mem_filter hmem⟩
      refine ⟨hnd, ?_, ?_⟩
      · intro k hk
        simp only [List.mem_append]
        exact Or.inl (hkv k hk)
      · intro e he
        have hocc_e := hocc e he
        by_cases hE0 : e = e0
        · subst hE0
          have hflag : e.enda ∉ st.visited := he0mem.2 ▸ hvis
          rw [if_neg hflag] at hocc_e
          have hcnt : countSum st.branches e.uid = 0 := by
            by_cases hh : e.uid ∈ st.trunks
            · simp [occSt, hh] at hocc_e
            · simpa [occSt, hh, countSum] using hocc_e
          show (if e.uid ∈ insert e.uid st.trunks then 1 else 0) + countSum st.branches e.uid
              = if e.enda ∈ st.visited ++ [node] then 1 else 0
          rw [hcnt, if_pos (Finset.mem_insert_self _ _), if_pos (by simp [he0mem.2])]
        · have huid : e.uid ≠ e0.uid := fun hh => hE0 (uid_inj edges huids he he0mem.1 hh)
          have hindeq : (e.uid ∈ insert e0.uid st.trunks) = (e.uid ∈ st.trunks) := by
            simp [Finset.mem_insert, huid]
          have hflag : (e.enda ∈ st.visited ++ [node]) = (e.enda ∈ st.visited) := by
            simp only [List.mem_append, List.mem_singleton, eq_iff_iff]
            constructor
            · rintro (hh | hh)
              · exact hh
              · exact absurd (hE e he (by simpa using hh)) hE0
            · exact Or.inl
          show (if e.uid ∈ insert e0.uid st.trunks then 1 else 0) + countSum st.branches e.uid
              = if e.enda ∈ st.visited ++ [node] then 1 else 0
          simp only [hindeq, hflag]
          exact hocc_e
  | case4 node rest st hvis st1 outs h1 h2 ih =>
      intro hinv
      rw [dfsStack.eq_def]
      simp only [dif_neg hvis,
        dif_neg (show ¬ (List.filter (fun e => e.enda == node) edges).length = 1 from h1),
        dif_pos (show 1 < (List.filter (fun e => e.enda == node) edges).length from h2)]
      apply ih
      show occInv edges
        { visited := st.visited ++ [node], trunks := st.trunks,
          branches := (List.filter (fun e => e.enda == node) edges).foldl
            (fun bs e => branchAdd bs node e.uid) st.branches }
      obtain ⟨hnd, hkv, hocc⟩ := hinv
      have h2' : 1 < (List.filter (fun e => e.enda == node) edges).length := h2
      have hes : List.filter (fun e => e.enda == node) edges ≠ [] := by
        intro hnil
        rw [hnil] at h2'
        simp at h2'
      have hnot : node ∉ st.branches.map Prod.fst := fun hh => hvis (hkv node hh)
      have husne : (List.filter (fun e => e.enda == node) edges).map Edge.uid ≠ [] := by
        simpa using hes
      have hfold : (List.filter (fun e => e.enda == node) edges).foldl
          (fun bs e => branchAdd bs node e.uid) st.branches =
          ((List.filter (fun e => e.enda == node) edges).map Edge.uid).foldl
            (fun bs u => branchAdd bs node u) st.branches := by
        rw [List.foldl_map]
      obtain ⟨hk, hc⟩ := branchAdd_fold_not_mem st.branches node
        ((List.filter (fun e => e.enda == node) edges).map Edge.uid) hnd hnot husne
      rw [← hfold] at hk hc
      have husnd : ((List.filter (fun e => e.enda == node) edges).map Edge.uid).Nodup :=
        huids.sublist ((List.filter_sublist _).map Edge.uid)
      refine ⟨?_, ?_, ?_⟩
      · rw [hk, List.nodup_append]
        exact ⟨hnd, List.nodup_singleton _, by simpa using hnot⟩
      · intro k hk'
        rw [hk] at hk'
        simp only [List.mem_append, List.mem_singleton] at hk' ⊢
        rcases hk' with hk' | hk'
        · exact Or.inl (hkv k hk')
        · exact Or.inr (by simp [hk'])
      · intro e he
        have hocc_e := hocc e he
        by_cases hnode : e.enda = node
        · have hmem : e ∈ List.filter (fun e' => e'.enda == node) edges := by
            simp [List.mem_filter, he, hnode]
          have hmemuid : e.uid ∈ (List.filter (fun e' => e'.enda == node) edges).map Edge.uid :=
            List.mem_map.mpr ⟨e, hmem, rfl⟩
          have hcount1 : ((List.filter (fun e' => e'.enda == node) edges).map Edge.uid).count e.uid
              = 1 := List.count_eq_one_of_mem husnd hmemuid
          have hflag : e.enda ∉ st.visited := hnode ▸ hvis
          rw [if_neg hflag] at hocc_e
          have hind : e.uid ∉ st.trunks := by
            by_cases hh : e.uid ∈ st.trunks
            · simp [occSt, hh] at hocc_e
            · exact hh
          have hcnt : countSum st.branches e.uid = 0 := by
            simpa [occSt, hind, countSum] using hocc_e
          show (if e.uid ∈ st.trunks then 1 else 0)
                + countSum ((List.filter (fun e' => e'.enda == node) edges).foldl
                  (fun bs e' => branchAdd bs node e'.uid) st.branches) e.uid
              = if e.enda ∈ st.visited ++ [node] then 1 else 0
          rw [if_neg hind, hc e.uid, hcnt, hcount1, if_pos (by simp [hnode])]
        · have hcount0 : ((List.filter (fun e' => e'.enda == node) edges).map Edge.uid).count e.uid
              = 0 := by
            rw [List.count_eq_zero]
            intro hh
            obtain ⟨f, hf, hfu⟩ := List.mem_map.mp hh
            have hfe : f = e := uid_inj edges huids (List.mem_of_mem_filter hf) he hfu
            rw [hfe] at hf
            exact hnode (by simpa using List.of_mem_filter hf)
          have hflag : (e.enda ∈ st.visited ++ [node]) = (e.enda ∈ st.visited) := by
            simp only [List.mem_append, List.mem_singleton, eq_iff_iff]
            constructor
            · rintro (hh | hh)
              · exact hh
              · exact absurd (by simpa using hh) hnode
            · exact Or.inl
          show (if e.uid ∈ st.trunks then 1 else 0)
                + countSum ((List.filter (fun e' => e'.enda == node) edges).foldl
                  (fun bs e' => branchAdd bs node e'.uid) st.branches) e.uid
              = if e.enda ∈ st.visited ++ [node] then 1 else 0
          rw [hc e.uid, hcount0, Nat.add_zero]
          simp only [hflag]
          exact hocc_e
  | case5 node rest st hvis st1 outs h1 h2 ih =>
      intro hinv
      rw [dfsStack.eq_def]
      simp only [dif_neg hvis,
        dif_neg (show ¬ (List.filter (fun e => e.enda == node) edges).length = 1 from h1),
        dif_neg (show ¬ 1 < (List.filter (fun e => e.enda == node) edges).length from h2)]
      apply ih
      show occInv edges
        { visited := st.visited ++ [node], trunks := st.trunks, branches := st.branches }
      obtain ⟨hnd, hkv, hocc⟩ := hinv
      have hnil : List.filter (fun e => e.enda == node) edges = [] := by
        have h1' : ¬ (List.filter (fun e => e.enda == node) edges).length = 1 := h1
        have h2' : ¬ 1 < (List.filter (fun e => e.enda == node) edges).length := h2
        have : (List.filter (fun e => e.enda == node) edges).length = 0 := by omega
        exact List.length_eq_zero.mp this
      refine ⟨hnd, ?_, ?_⟩
      · intro k hk
        simp only [List.mem_append]
        exact Or.inl (hkv k hk)
      · intro e he
        have hnode : e.enda ≠ node := by
          intro hh
          have hmem : e ∈ List.filter (fun e' => e'.enda == node) edges := by
            simp [List.mem_filter, he, hh]
          rw [hnil] at hmem
          simp at hmem
        have hflag : (e.enda ∈ st.visited ++ [node]) = (e.enda ∈ st.visited) := by
          simp only [List.mem_append, List.mem_singleton, eq_iff_iff]
          constructor
          · rintro (hh | hh)
            · exact hh
            · exact absurd (by simpa using hh) hnode
          · exact Or.inl
        show (if e.uid ∈ st.trunks then 1 else 0) + countSum st.branches e.uid
            = if e.enda ∈ st.visited ++ [node] then 1 else 0
        simp only [hflag]
        exact hocc e he

/-- Claim C7 (confirmed): every edge whose source node is reachable from some
WELL-typed node is classified exactly once by `find_trunks_and_branches`: its
uid appears either in the trunk set or in the branch candidate lists, with
total multiplicity exactly one (so never in both, never twice). -/
theorem c7_classified_once (edges : List Edge) (uid_type : List (String × String)) (e : Edge)
    (huids : (edges.map Edge.uid).Nodup) (he : e ∈ edges)
    (hreach : ∃ w ∈ (uid_type.filter (fun kv => kv.2 == "WELL")).map Prod.fst,
      Reach edges w e.enda) :
    (if e.uid ∈ (find_trunks_and_branches edges uid_type).1 then 1 else 0)
      + countSum (find_trunks_and_branches edges uid_type).2 e.uid = 1 := by
  obtain ⟨w, hw, hr⟩ := hreach
  have hinv := dfsStack_occInv edges huids
    ((uid_type.filter (fun kv => kv.2 == "WELL")).map Prod.fst)
    { visited := [], trunks := ∅, branches := [] }
    (by
      refine ⟨by simp, by simp, ?_⟩
      intro e _
      simp [occSt, countSum])
  have hvisited := dfsStack_reach_visited edges
    ((uid_type.filter (fun kv => kv.2 == "WELL")).map Prod.fst) w e.enda hw hr
  obtain ⟨_, _, hocc⟩ := hinv
  have hfinal := hocc e he
  rw [if_pos hvisited] at hfinal
  simpa [find_trunks_and_branches, occSt] using hfinal

/-- The single edge of the C7/C10 witness: pipe `P1` from well `W1` to `J1`. -/
def c7edge : Edge := { uid := "P1", enda := "W1", endb := "J1", etype := "PIPE" }

/-- Witness for claim C7 at a concrete one-edge topology: the pipe from the
well is classified exactly once. -/
theorem c7_witness :
    (if c7edge.uid ∈ (find_trunks_and_branches [c7edge] [("W1", "WELL")]).1 then 1 else 0)
      + countSum (find_trunks_and_branches [c7edge] [("W1", "WELL")]).2 c7edge.uid = 1 :=
  c7_classified_once [c7edge] [("W1", "WELL")] c7edge (by decide) (by decide)
    ⟨"W1", by decide, Reach.refl "W1"⟩

/-- The visited list never acquires duplicates: every node is expanded at most
once. -/
theorem dfsStack_visited_nodup (edges : List Edge) (pending : List String) (st : ClsSt)
    (h : st.visited.Nodup) : (dfsStack edges pending st).visited.Nodup := by
  revert h
  induction pending, st using dfsStack.induct edges with
  | case1 st =>
      intro h
      simpa [dfsStack] using h
  | case2 node rest st hvis ih =>
      intro h
      rw [dfsStack.eq_def]
      simp only [dif_pos hvis]
      exact ih h
  | case3 node rest st hvis st1 outs h1 ih =>
      intro h
      rw [dfsStack.eq_def]
      simp only [dif_neg hvis,
        dif_pos (show (List.filter (fun e => e.enda == node) edges).length = 1 from h1)]
      apply ih
      rw [List.nodup_append]
      refine ⟨h, List.nodup_singleton _, ?_⟩
      intro a ha hb
      have : a = node := by simpa using hb
      exact hvis (this ▸ ha)
  | case4 node rest st hvis st1 outs h1 h2 ih =>
      intro h
      rw [dfsStack.eq_def]
      simp only [dif_neg hvis,
        dif_neg (show ¬ (List.filter (fun e => e.enda == node) edges).length = 1 from h1),
        dif_pos (show 1 < (List.filter (fun e => e.enda == node) edges).length from h2)]
      apply ih
      rw [List.nodup_append]
      refine ⟨h, List.nodup_singleton _, ?_⟩
      intro a ha hb
      have : a = node := by simpa using hb
      exact hvis (this ▸ ha)
  | case5 node rest st hvis st1 outs h1 h2 ih =>
      intro h
      rw [dfsStack.eq_def]
      simp only [dif_neg hvis,
        dif_neg (show ¬ (List.filter (fun e => e.enda == node) edges).length = 1 from h1),
        dif_neg (show ¬ 1 < (List.filter (fun e => e.enda == node) edges).length from h2)]
      apply ih
      rw [List.nodup_append]
      refine ⟨h, List.nodup_singleton _, ?_⟩
      intro a ha hb
      have : a = node := by simpa using hb
      exact hvis (this ▸ ha)

/-- A fuel-bounded copy of the classifier DFS: identical step logic, but each
processed worklist entry consumes one unit of fuel and running out of fuel
yields `none` (modelling a recursion that would not terminate within the
budget). -/
def dfsStackFuel (edges : List Edge) : Nat → List String → ClsSt → Option ClsSt
  | _, [], st => some st
  | 0, _ :: _, _ => none
  | fuel + 1, node :: rest, st =>
    if node ∈ st.visited then dfsStackFuel edges fuel rest st
    else
      let st1 : ClsSt := { st with visited := st.visited ++ [node] }
      let outs := edges.filter (fun e => e.enda == node)
      if outs.length = 1 then
        dfsStackFuel edges fuel (outs.headI.endb :: rest)
          { st1 with trunks := insert outs.headI.uid st1.trunks }
      else if 1 < outs.length then
        dfsStackFuel edges fuel (outs.map Edge.endb ++ rest)
          { st1 with branches := outs.foldl (fun bs e => branchAdd bs node e.uid) st1.branches }
      else
        dfsStackFuel edges fuel rest st1

/-- Fuel-bounded `find_trunks_and_branches`. -/
def find_trunks_and_branches_fuel (edges : List Edge) (uid_type : List (String × String))
    (fuel : ℕ) : Option (Finset String × List (String × List String)) :=
  let wells := (uid_type.filter (fun kv => kv.2 == "WELL")).map Prod.fst
  (dfsStackFuel edges fuel wells { visited := [], trunks := ∅, branches := [] }).map
    (fun st => (st.trunks, st.branches))

/-- Any fuel above the classifier measure suffices: the shared visited set
forces the DFS to terminate, and the fuel-bounded run computes the total one. -/
theorem dfsStackFuel_adequate (edges : List Edge) (pending : List String) (st : ClsSt) :
    ∀ fuel, clsMeasure edges pending st < fuel →
      dfsStackFuel edges fuel pending st = some (dfsStack edges pending st) := by
  induction pending, st using dfsStack.induct edges with
  | case1 st =>
      intro fuel _
      cases fuel <;> simp [dfsStackFuel, dfsStack]
  | case2 node rest st hvis ih =>
      intro fuel hf
      cases fuel with
      | zero => exact absurd hf (Nat.not_lt_zero _)
      | succ f =>
          have hdec : clsMeasure edges rest st < clsMeasure edges (node :: rest) st := by
            simp only [clsMeasure, List.length_cons]
            exact Nat.add_lt_add_left (Nat.lt_succ_self _) _
          rw [dfsStack.eq_def]
          simp only [dif_pos hvis]
          simp only [dfsStackFuel, if_pos hvis]
          exact ih f (lt_of_lt_of_le hdec (Nat.lt_succ_iff.mp hf))
  | case3 node rest st hvis st1 outs h1 ih =>
      intro fuel hf
      cases fuel with
      | zero => exact absurd hf (Nat.not_lt_zero _)
      | succ f =>
          have h1' : (List.filter (fun e => e.enda == node) edges).length = 1 := h1
          have hne : edges.filter (fun e => e.enda == node) ≠ [] := by
            intro hnil
            rw [hnil] at h1'
            simp at h1'
          obtain ⟨e, he⟩ := List.exists_mem_of_ne_nil _ hne
          have hsrc : node ∈ (edges.map Edge.enda).toFinset := by
            simp only [List.mem_toFinset, List.mem_map]
            exact ⟨e, List.mem_of_mem_filter he, by simpa using List.of_mem_filter he⟩
          have hvtf : node ∉ st.visited.toFinset := by simpa using hvis
          have hdec : clsMeasure edges
              ((List.filter (fun e => e.enda == node) edges).headI.endb :: rest)
              { visited := st.visited ++ [node],
                trunks := insert (List.filter (fun e => e.enda == node) edges).headI.uid st.trunks,
                branches := st.branches } < clsMeasure edges (node :: rest) st := by
            simp only [clsMeasure, List.length_cons, visited_append_toFinset]
            exact Nat.add_lt_add_right
              (mul_succ_lt_of_lt _ _ _ (card_sdiff_insert_lt _ _ _ hsrc hvtf)) _
          rw [dfsStack.eq_def]
          simp only [dif_neg hvis, dif_pos h1']
          simp only [dfsStackFuel, if_neg hvis, if_pos h1']
          exact ih f (lt_of_lt_of_le hdec (Nat.lt_succ_iff.mp hf))
  | case4 node rest st hvis st1 outs h1 h2 ih =>
      intro fuel hf
      cases fuel with
      | zero => exact absurd hf (Nat.not_lt_zero _)
      | succ f =>
          have h1' : ¬ (List.filter (fun e => e.enda == node) edges).length = 1 := h1
          have h2' : 1 < (List.filter (fun e => e.enda == node) edges).length := h2
          have hne : edges.filter (fun e => e.enda == node) ≠ [] := by
            intro hnil
            rw [hnil] at h2'
            simp at h2'
          obtain ⟨e, he⟩ := List.exists_mem_of_ne_nil _ hne
          have hsrc : node ∈ (edges.map Edge.enda).toFinset := by
            simp only [List.mem_toFinset, List.mem_map]
            exact ⟨e, List.mem_of_mem_filter he, by simpa using List.of_mem_filter he⟩
          have hvtf : node ∉ st.visited.toFinset := by simpa using hvis
          have hdec : clsMeasure edges
              ((List.filter (fun e => e.enda == node) edges).map Edge.endb ++ rest)
              { visited := st.visited ++ [node], trunks := st.trunks,
                branches := (List.filter (fun e => e.enda == node) edges).foldl
                  (fun bs e => branchAdd bs node e.uid) st.branches }
              < clsMeasure edges (node :: rest) st := by
            simp only [clsMeasure, List.length_cons, visited_append_toFinset,
              List.length_append, List.length_map]
            exact dfs_measure_lt _ _ _ _ _
              (card_sdiff_insert_lt _ _ _ hsrc hvtf)
              (List.length_filter_le (fun e => e.enda == node) edges)
          rw [dfsStack.eq_def]
          simp only [dif_neg hvis, dif_neg h1', dif_pos h2']
          simp only [dfsStackFuel, if_neg hvis, if_neg h1', if_pos h2']
          exact ih f (lt_of_lt_of_le hdec (Nat.lt_succ_iff.mp hf))
  | case5 node rest st hvis st1 outs h1 h2 ih =>
      intro fuel hf
      cases fuel with
      | zero => exact absurd hf (Nat.not_lt_zero _)
      | succ f =>
          have h1' : ¬ (List.filter (fun e => e.enda == node) edges).length = 1 := h1
          have h2' : ¬ 1 < (List.filter (fun e => e.enda == node) edges).length := h2
          have hdec : clsMeasure edges rest
              { visited := st.visited ++ [node], trunks := st.trunks, branches := st.branches }
              < clsMeasure edges (node :: rest) st := by
            simp only [clsMeasure, List.length_cons, visited_append_toFinset]
            exact Nat.add_lt_add_of_le_of_lt
              (Nat.mul_le_mul_right _ (Finset.card_le_card
                (Finset.sdiff_subset_sdiff (le_refl _) (Finset.subset_insert _ _))))
              (Nat.lt_succ_self _)
          rw [dfsStack.eq_def]
          simp only [dif_neg hvis, dif_neg h1', dif_neg h2']
          simp only [dfsStackFuel, if_neg hvis, if_neg h1', if_neg h2']
          exact ih f (lt_of_lt_of_le hdec (Nat.lt_succ_iff.mp hf))

/-- Claim C10 (confirmed): `find_trunks_and_branches` terminates on every
finite edge set and type map, cycles and converging trunks included.  The
shared visited set makes every node be expanded at most once (the visited list
has no duplicates), and any recursion budget above the explicit bound
`clsMeasure` — a function of the finite graph alone — lets the fuel-bounded
classifier complete with the total classifier's answer. -/
theorem c10_classifier_terminates (edges : List Edge) (uid_type : List (String × String)) :
    (dfsStack edges ((uid_type.filter (fun kv => kv.2 == "WELL")).map Prod.fst)
        { visited := [], trunks := ∅, branches := [] }).visited.Nodup ∧
      ∀ fuel, clsMeasure edges ((uid_type.filter (fun kv => kv.2 == "WELL")).map Prod.fst)
          { visited := [], trunks := ∅, branches := [] } < fuel →
        find_trunks_and_branches_fuel edges uid_type fuel
          = some (find_trunks_and_branches edges uid_type) := by
  constructor
  · exact dfsStack_visited_nodup edges _ _ (List.nodup_nil)
  · intro fuel hf
    simp only [find_trunks_and_branches_fuel, find_trunks_and_branches]
    rw [dfsStackFuel_adequate edges _ _ fuel hf]
    rfl

/-- Witness for claim C10 at a concrete one-edge topology with fuel 10. -/
theorem c10_witness :
    (dfsStack [c7edge] (([( "W1", "WELL")].filter (fun kv => kv.2 == "WELL")).map Prod.fst)
        { visited := [], trunks := ∅, branches := [] }).visited.Nodup ∧
      find_trunks_and_branches_fuel [c7edge] [("W1", "WELL")] 10
        = some (find_trunks_and_branches [c7edge] [("W1", "WELL")]) :=
  ⟨(c10_classifier_terminates [c7edge] [("W1", "WELL")]).1,
    (c10_classifier_terminates [c7edge] [("W1", "WELL")]).2 10 (by decide)⟩

/-! ## Route enumerator (`find_paths_from_well_to_sep`, gap_tools.py 93-114) -/

/-- `graph.get(node, [])`: the adjacency entries `(eq_uid, endb_uid, etype)` of
a node in the directed-graph dict (association list). -/
def adjOf (g : List (String × List (String × String × String))) (node : String) :
    List (String × String × String) :=
  ((g.find? (fun kv => kv.1 == node)).map Prod.snd).getD []

/-- The nodes that own an adjacency entry (the dict's key set). -/
def pathsUniv (g : List (String × List (String × String × String))) : Finset String :=
  (g.map Prod.fst).toFinset

/-- A node with a nonempty adjacency list is a graph key. -/
theorem mem_pathsUniv_of_adj_ne_nil (g : List (String × List (String × String × String)))
    (node : String) (h : adjOf g node ≠ []) : node ∈ pathsUniv g := by
  unfold adjOf at h
  cases hf : g.find? (fun kv => kv.1 == node) with
  | none => rw [hf] at h; simp at h
  | some kv =>
      have hmem := List.mem_of_find?_eq_some hf
      have hkey : kv.1 = node := by simpa using List.find?_some hf
      unfold pathsUniv
      rw [List.mem_toFinset]
      exact List.mem_map.mpr ⟨kv, hmem, hkey⟩

/-- The inner recursion of `find_paths_from_well_to_sep` (gap_tools.py, lines
102-110): stop with the accumulated path on reaching a separator, otherwise
recurse into every neighbour not on the current path's visited set (the
visited set is path-local: the recursive call receives `visited | {node}`). -/
def dfsPaths (g : List (String × List (String × String × String))) (seps : Finset String) :
    String → List String → Finset String → List (List String)
  | node, path, visited =>
    if node ∈ seps then [path]
    else
      ((adjOf g node).filter (fun o => o.2.1 ∉ visited)).attach.flatMap
        (fun o => dfsPaths g seps o.1.2.1 (path ++ [o.1.1, o.1.2.1]) (insert node visited))
termination_by node _ visited =>
  2 * ((pathsUniv g) \ visited).card + (if node ∈ visited then 1 else 0)
decreasing_by
  obtain ⟨x, hx⟩ := o
  have hmm : x ∈ adjOf g node := List.mem_of_mem_filter hx
  have hne : adjOf g node ≠ [] := List.ne_nil_of_mem hmm
  have hneigh : x.2.1 ∉ visited := by simpa using List.of_mem_filter hx
  simp only
  by_cases hnv : node ∈ visited
  · rw [Finset.insert_eq_self.mpr hnv]
    rw [if_pos hnv, if_neg hneigh]
    omega
  · have hnode : node ∈ pathsUniv g := mem_pathsUniv_of_adj_ne_nil g node hne
    have hvtf : node ∉ visited := hnv
    have hcard : ((pathsUniv g) \ insert node visited).card < ((pathsUniv g) \ visited).card :=
      card_sdiff_insert_lt _ _ _ hnode hvtf
    rw [if_neg hnv]
    have hflag : (if x.2.1 ∈ insert node visited then 1 else 0) ≤ 1 := by
      split <;> omega
    omega

/-- `find_paths_from_well_to_sep(graph, uid_type)` (gap_tools.py, lines
93-114): one entry per WELL-typed node, in order, holding all routes found by
the path-local DFS started at the well with `{well}` visited. -/
def find_paths_from_well_to_sep (g : List (String × List (String × String × String)))
    (uid_type : List (String × String)) : List (String × List (List String)) :=
  let wells := (uid_type.filter (fun kv => kv.2 == "WELL")).map Prod.fst
  let seps := ((uid_type.filter (fun kv => kv.2 == "SEP")).map Prod.fst).toFinset
  wells.map (fun w => (w, dfsPaths g seps w [w] {w}))

/-- Reachability along the adjacency of the route graph. -/
inductive ReachG (g : List (String × List (String × String × String))) :
    String → String → Prop where
  | refl (u : String) : ReachG g u u
  | step {u v : String} {o : String × String × String} :
      ReachG g u v → o ∈ adjOf g v → ReachG g u o.2.1

/-- Reachability composes. -/
theorem ReachG_trans (g : List (String × List (String × String × String)))
    {a b c : String} (h1 : ReachG g a b) (h2 : ReachG g b c) : ReachG g a c := by
  induction h2 with
  | refl => exact h1
  | step hr ho ih => exact ReachG.step ih ho

/-- If the path DFS returns a nonempty list, some separator is reachable from
the start node. -/
theorem dfsPaths_sound (g : List (String × List (String × String × String)))
    (seps : Finset String) :
    ∀ node path visited, dfsPaths g seps node path visited ≠ [] →
      ∃ t ∈ seps, ReachG g node t := by
  intro node path visited h
  induction node, path, visited using dfsPaths.induct g seps with
  | case1 node path visited hsep =>
      exact ⟨node, hsep, ReachG.refl node⟩
  | case2 node path visited hsep ih =>
      rw [dfsPaths] at h
      rw [if_neg hsep] at h
      rcases List.exists_mem_of_ne_nil _ h with ⟨p, hp⟩
      rcases List.mem_flatMap.mp hp with ⟨o, ho, hpo⟩
      have hrec : dfsPaths g seps o.1.2.1 (path ++ [o.1.1, o.1.2.1]) (insert node visited) ≠ [] :=
        List.ne_nil_of_mem hpo
      rcases ih o hrec with ⟨t, ht, hreach⟩
      have hadj : o.1 ∈ adjOf g node := List.mem_of_mem_filter o.2
      have hstep : ReachG g node o.1.2.1 := ReachG.step (ReachG.refl node) hadj
      exact ⟨t, ht, ReachG_trans g hstep hreach⟩

/-- `find?` on a key-tagged map hits the searched key. -/
theorem find_map_self {β : Type} (f : String → β) (l : List String) (w : String)
    (hw : w ∈ l) :
    (l.map (fun x => (x, f x))).find? (fun kv => kv.1 == w) = some (w, f w) := by
  induction l with
  | nil => cases hw
  | cons x xs ih =>
      by_cases hx : x = w
      · subst hx
        simp
      · have hbeq : (x == w) = false := by simpa using hx
        simp only [List.map_cons, List.find?_cons, hbeq]
        exact ih ((List.mem_cons.mp hw).resolve_left (fun h => hx h.symm))

/-- **C8.** `find_paths_from_well_to_sep` is a total function whose result
holds an entry for every WELL-typed node (keyed by the well, in snapshot
order), and a well from which no SEP-typed node is reachable along the
directed adjacency gets the empty route list, not an error: the DFS
terminates (the Lean embedding is a total function, so the theorem's very
statement witnesses termination) and simply finds no path. -/
theorem c8_paths_total (g : List (String × List (String × String × String)))
    (uid_type : List (String × String)) (w : String)
    (hw : w ∈ (uid_type.filter (fun kv => kv.2 == "WELL")).map Prod.fst) :
    ∃ l, ((find_paths_from_well_to_sep g uid_type).find? (fun kv => kv.1 == w)).map Prod.snd
        = some l ∧
      ((¬ ∃ t ∈ ((uid_type.filter (fun kv => kv.2 == "SEP")).map Prod.fst).toFinset,
          ReachG g w t) → l = []) := by
  refine ⟨dfsPaths g (((uid_type.filter (fun kv => kv.2 == "SEP")).map Prod.fst).toFinset)
      w [w] {w}, ?_, ?_⟩
  · unfold find_paths_from_well_to_sep
    rw [find_map_self _ _ _ hw]
    rfl
  · intro hno
    by_contra hne
    exact hno (dfsPaths_sound g _ w [w] {w} hne)

/-- Witness for C8: on the empty adjacency with one well `W` and one
separator `S`, the well's entry exists and is the empty route list. -/
theorem c8_witness :
    ("W" ∈ (([("W", "WELL"), ("S", "SEP")] :
        List (String × String)).filter (fun kv => kv.2 == "WELL")).map Prod.fst) ∧
    ∃ l, ((find_paths_from_well_to_sep [] [("W", "WELL"), ("S", "SEP")]).find?
        (fun kv => kv.1 == "W")).map Prod.snd = some l ∧
      ((¬ ∃ t ∈ ((([("W", "WELL"), ("S", "SEP")] :
            List (String × String)).filter (fun kv => kv.2 == "SEP")).map Prod.fst).toFinset,
          ReachG [] "W" t) → l = []) :=
  ⟨by decide, c8_paths_total [] [("W", "WELL"), ("S", "SEP")] "W" (by decide)⟩

/-! ## JSON round trip (`save_topology_json` / `load_topology_json`,
gap_tools.py 172-180) -/

/-- Python values that can reach `json.dump` in this program. -/
inductive PyVal where
  | pstr : String → PyVal
  | pint : Int → PyVal
  | pfloat : ℚ → PyVal
  | pbool : Bool → PyVal
  | pnone : PyVal
  | plist : List PyVal → PyVal
  | ptuple : List PyVal → PyVal
  | pdict : List (String × PyVal) → PyVal

/- `save_topology_json` is `json.dump` to a file and `load_topology_json` is
`json.load` from it (gap_tools.py 172-180); the `json` module itself is not
part of this repository, so its effect is modelled from the spec's account of
JSON serialization: strings, ints, floats, booleans and `None` come back
unchanged, lists and tuples both serialize to JSON arrays and load back as
lists (so a tuple does NOT round-trip to itself), and string-keyed dicts come
back as dicts with the same keys in order. `dumpLoad v` is the value
`json.load` yields after `json.dump v`, `none` standing for a serialization
error. -/
mutual

/-- Modelled from the spec: composite effect of `json.dump` then `json.load`
on one value. -/
def dumpLoad : PyVal → Option PyVal
  | PyVal.pstr s => some (PyVal.pstr s)
  | PyVal.pint n => some (PyVal.pint n)
  | PyVal.pfloat q => some (PyVal.pfloat q)
  | PyVal.pbool b => some (PyVal.pbool b)
  | PyVal.pnone => some PyVal.pnone
  | PyVal.plist l => (dumpLoadList l).map PyVal.plist
  | PyVal.ptuple l => (dumpLoadList l).map PyVal.plist
  | PyVal.pdict kvs => (dumpLoadDict kvs).map PyVal.pdict

/-- Modelled from the spec: element-wise round trip of a JSON array. -/
def dumpLoadList : List PyVal → Option (List PyVal)
  | [] => some []
  | v :: vs => do
      let v' ← dumpLoad v
      let vs' ← dumpLoadList vs
      pure (v' :: vs')

/-- Modelled from the spec: entry-wise round trip of a string-keyed JSON
object. -/
def dumpLoadDict : List (String × PyVal) → Option (List (String × PyVal))
  | [] => some []
  | (k, v) :: kvs => do
      let v' ← dumpLoad v
      let kvs' ← dumpLoadDict kvs
      pure ((k, v') :: kvs')

end

/-- A list of values each fixed by the round trip is fixed element-wise. -/
theorem dumpLoadList_of_stable (l : List PyVal) (h : ∀ v ∈ l, dumpLoad v = some v) :
    dumpLoadList l = some l := by
  induction l with
  | nil => rfl
  | cons v vs ih =>
      rw [dumpLoadList, h v (List.mem_cons_self v vs),
        ih (fun w hw => h w (List.mem_cons_of_mem v hw))]
      rfl

/-- A list fixed element-wise round-trips as a `plist`. -/
theorem dumpLoad_plist_of_stable (l : List PyVal) (h : ∀ v ∈ l, dumpLoad v = some v) :
    dumpLoad (PyVal.plist l) = some (PyVal.plist l) := by
  rw [dumpLoad, dumpLoadList_of_stable l h]
  rfl

/-- A dict whose values are fixed round-trips entry-wise. -/
theorem dumpLoadDict_of_stable (kvs : List (String × PyVal))
    (h : ∀ kv ∈ kvs, dumpLoad kv.2 = some kv.2) :
    dumpLoadDict kvs = some kvs := by
  induction kvs with
  | nil => rfl
  | cons kv rest ih =>
      obtain ⟨k, v⟩ := kv
      rw [dumpLoadDict, h (k, v) (List.mem_cons_self _ rest),
        ih (fun w hw => h w (List.mem_cons_of_mem _ hw))]
      rfl

/-- A dict whose values are fixed round-trips as a `pdict`. -/
theorem dumpLoad_pdict_of_stable (kvs : List (String × PyVal))
    (h : ∀ kv ∈ kvs, dumpLoad kv.2 = some kv.2) :
    dumpLoad (PyVal.pdict kvs) = some (PyVal.pdict kvs) := by
  rw [dumpLoad, dumpLoadDict_of_stable kvs h]
  rfl

/-- One `trunks_data` entry (gap_tools.py, lines 133-138): uid, type looked
up with default "?", label looked up with default uid, initial_masked flag. -/
def trunkEntry (uid_type uid_label : List (String × String)) (uid : String)
    (masked : Bool) : PyVal :=
  PyVal.pdict
    [("uid", PyVal.pstr uid),
     ("type", PyVal.pstr (((uid_type.find? (fun kv => kv.1 == uid)).map Prod.snd).getD "?")),
     ("label", PyVal.pstr (((uid_label.find? (fun kv => kv.1 == uid)).map Prod.snd).getD uid)),
     ("initial_masked", PyVal.pbool masked)]

/-- One branch candidate entry (gap_tools.py, line 149) — also the per-node
entry of `routes_named` (line 158). -/
def branchEntry (uid_type uid_label : List (String × String)) (uid : String) : PyVal :=
  PyVal.pdict
    [("uid", PyVal.pstr uid),
     ("type", PyVal.pstr (((uid_type.find? (fun kv => kv.1 == uid)).map Prod.snd).getD "?")),
     ("label", PyVal.pstr (((uid_label.find? (fun kv => kv.1 == uid)).map Prod.snd).getD uid))]

/-- The topology snapshot dict built by `extract_topology` (gap_tools.py,
lines 144-165), parameterised by the data read from the model: the trunk uids
with their ISMASKED flags, the branch dict and the route dict. -/
def topologyData (model : String) (uid_type uid_label : List (String × String))
    (trunks : List (String × Bool)) (branches : List (String × List String))
    (routes : List (String × List (List String))) : PyVal :=
  PyVal.pdict
    [("model", PyVal.pstr model),
     ("trunks", PyVal.plist (trunks.map (fun t => trunkEntry uid_type uid_label t.1 t.2))),
     ("branches", PyVal.pdict (branches.map (fun b =>
        (b.1, PyVal.plist (b.2.map (branchEntry uid_type uid_label)))))),
     ("routes", PyVal.pdict (routes.map (fun r =>
        (r.1, PyVal.plist (r.2.map (fun p => PyVal.plist (p.map PyVal.pstr))))))),
     ("routes_named", PyVal.pdict (routes.map (fun r =>
        (r.1, PyVal.plist (r.2.map (fun p =>
           PyVal.plist (p.map (branchEntry uid_type uid_label))))))))]

/-- A trunk entry is fixed by the round trip: all leaves. -/
theorem trunkEntry_stable (uid_type uid_label : List (String × String)) (uid : String)
    (masked : Bool) :
    dumpLoad (trunkEntry uid_type uid_label uid masked)
      = some (trunkEntry uid_type uid_label uid masked) := rfl

/-- A branch entry is fixed by the round trip: all leaves. -/
theorem branchEntry_stable (uid_type uid_label : List (String × String)) (uid : String) :
    dumpLoad (branchEntry uid_type uid_label uid)
      = some (branchEntry uid_type uid_label uid) := rfl

/-- **C9.** Every snapshot `extract_topology` can build — any model name,
type/label maps, trunk list with mask flags, branch dict and route dict —
is fixed by `save_topology_json` followed by `load_topology_json`: the
snapshot holds only strings, booleans, lists and string-keyed dicts, all of
which JSON round-trips unchanged. -/
theorem c9_save_load_roundtrip (model : String) (uid_type uid_label : List (String × String))
    (trunks : List (String × Bool)) (branches : List (String × List String))
    (routes : List (String × List (List String))) :
    dumpLoad (topologyData model uid_type uid_label trunks branches routes)
      = some (topologyData model uid_type uid_label trunks branches routes) := by
  apply dumpLoad_pdict_of_stable
  intro kv hkv
  simp only [topologyData, List.mem_cons, List.not_mem_nil, or_false] at hkv
  rcases hkv with rfl | rfl | rfl | rfl | rfl
  · rfl
  · apply dumpLoad_plist_of_stable
    intro v hv
    rcases List.mem_map.mp hv with ⟨t, _, rfl⟩
    exact trunkEntry_stable uid_type uid_label t.1 t.2
  · apply dumpLoad_pdict_of_stable
    intro kv2 hkv2
    rcases List.mem_map.mp hkv2 with ⟨b, _, rfl⟩
    apply dumpLoad_plist_of_stable
    intro v hv
    rcases List.mem_map.mp hv with ⟨u, _, rfl⟩
    exact branchEntry_stable uid_type uid_label u
  · apply dumpLoad_pdict_of_stable
    intro kv2 hkv2
    rcases List.mem_map.mp hkv2 with ⟨r, _, rfl⟩
    apply dumpLoad_plist_of_stable
    intro v hv
    rcases List.mem_map.mp hv with ⟨p, _, rfl⟩
    apply dumpLoad_plist_of_stable
    intro w hw
    rcases List.mem_map.mp hw with ⟨s, _, rfl⟩
    rfl
  · apply dumpLoad_pdict_of_stable
    intro kv2 hkv2
    rcases List.mem_map.mp hkv2 with ⟨r, _, rfl⟩
    apply dumpLoad_plist_of_stable
    intro v hv
    rcases List.mem_map.mp hv with ⟨p, _, rfl⟩
    apply dumpLoad_plist_of_stable
    intro w hw
    rcases List.mem_map.mp hw with ⟨u, _, rfl⟩
    exact branchEntry_stable uid_type uid_label u
